import Mathlib

/-!
Verification of the Confluence sync script
(`tools/confluence-sync/sync_to_confluence.py`, the full copy of the
script; the copy under `scripts/` is an earlier cut of the same file).

Strings are modelled as `List Char`.  Each Python regular-expression
substitution is embedded as an explicit left-to-right scan with the same
backtracking semantics as Python's `re` module on the concrete pattern
involved (the patterns are all simple enough that their behaviour can be
described exactly).  Filesystem and HTTP effects are modelled by explicit
oracle structures (`FsModel`, `Remote`), and the calls the script issues
are recorded in a trace of `ApiCall`s.
-/

/-- ASCII model of Python's notion of whitespace (`str.strip`, `\s`). -/
def pyIsSpace (c : Char) : Bool :=
  c = ' ' ∨ c = '\t' ∨ c = '\n' ∨ c = '\r' ∨ c = '\x0b' ∨ c = '\x0c'

/-- Python `str.strip()`: remove leading and trailing whitespace. -/
def pyStrip (l : List Char) : List Char :=
  ((l.dropWhile pyIsSpace).reverse.dropWhile pyIsSpace).reverse

/-- The two quote characters stripped by `value.strip('"\'')`. -/
def isQuoteChar (c : Char) : Bool :=
  c = '"' ∨ c = Char.ofNat 39

/-- Python `value.strip('"\'')`: remove leading and trailing quotes. -/
def stripQuotes (l : List Char) : List Char :=
  ((l.dropWhile isQuoteChar).reverse.dropWhile isQuoteChar).reverse

/-- `listStartsWith p l` holds when `p` is a prefix of `l`
(Python `str.startswith`). -/
def listStartsWith : List Char → List Char → Bool
  | [], _ => true
  | _ :: _, [] => false
  | p :: ps, c :: cs => p = c && listStartsWith ps cs

/-- Python `s.split(sep)` for a single-character separator. -/
def splitOnChar (sep : Char) : List Char → List (List Char)
  | [] => [[]]
  | c :: rest =>
    if c = sep then [] :: splitOnChar sep rest
    else
      match splitOnChar sep rest with
      | [] => [[c]]
      | h :: t => (c :: h) :: t

/-- Python `content.split('\n')`. -/
def splitLines (l : List Char) : List (List Char) :=
  splitOnChar '\n' l

/-- Python `content.split('\n\n')` (used by the paragraph stage). -/
def splitNlNl : List Char → List (List Char)
  | [] => [[]]
  | '\n' :: '\n' :: rest => [] :: splitNlNl rest
  | c :: rest =>
    match splitNlNl rest with
    | [] => [[c]]
    | h :: t => (c :: h) :: t

/-- Python `'\n'.join(pieces)`. -/
def intercalateNl : List (List Char) → List Char
  | [] => []
  | [x] => x
  | x :: y :: xs => x ++ '\n' :: intercalateNl (y :: xs)

/-- Concatenation of a list of strings. -/
def concatAll (ls : List (List Char)) : List Char :=
  ls.foldr (fun a b => a ++ b) []

/-- `true` iff the string contains two consecutive newlines. -/
def hasDoubleNl : List Char → Bool
  | '\n' :: '\n' :: _ => true
  | _ :: rest => hasDoubleNl rest
  | [] => false

/-! ## Front matter (`parse_frontmatter`) -/

/-- A Python dict with string keys and values, as an insertion-ordered
association list. -/
abbrev Dict := List (List Char × List Char)

/-- `d[k] = v` on a Python dict: overwrite in place or append. -/
def dictInsert (d : Dict) (k v : List Char) : Dict :=
  if d.any (fun kv => kv.1 = k) then
    d.map (fun kv => if kv.1 = k then (k, v) else kv)
  else d ++ [(k, v)]

/-- `k in d` / `d.get(k)` on a Python dict. -/
def dictFind (d : Dict) (k : List Char) : Option (List Char) :=
  (d.find? (fun kv => kv.1 = k)).map (fun kv => kv.2)

/-- The regex fragment `\s*\n` matched greedily (maximal run of whitespace,
backtracking until the next literal `\n` is found): consumes the leading
whitespace up to and including the *last* newline inside the maximal
whitespace run.  Returns the remainder, or `none` when the run has no
newline. -/
def wsThenNl (l : List Char) : Option (List Char) :=
  let W := l.takeWhile pyIsSpace
  if '\n' ∈ W then
    some (l.drop (W.length - W.reverse.findIdx (fun c => c = '\n')))
  else none

/-- The lazy group `(.*?)` of `^---\s*\n(.*?)\n---\s*\n(.*)$` (DOTALL):
scan for the shortest prefix followed by `\n---` and then `\s*\n`.
Returns the group and the final remainder (the body group). -/
def findFMClose : List Char → Option (List Char × List Char)
  | [] => none
  | c :: rest =>
    match (if listStartsWith ('\n' :: '-' :: '-' :: '-' :: []) (c :: rest) then
             wsThenNl ((c :: rest).drop 4)
           else none) with
    | some body => some ([], body)
    | none => (findFMClose rest).map (fun x => (c :: x.1, x.2))

/-- `re.match(r'^---\s*\n(.*?)\n---\s*\n(.*)$', content, re.DOTALL)`:
returns the front-matter text and the body when the pattern matches. -/
def matchFrontmatter (content : List Char) : Option (List Char × List Char) :=
  if listStartsWith ('-' :: '-' :: '-' :: []) content then
    match wsThenNl (content.drop 3) with
    | some l1 => findFMClose l1
    | none => none
  else none

/-- One iteration of the front-matter line loop: if the line contains a
`:`, split on the first `:`, strip a `#` comment from the value, strip
whitespace, strip surrounding quotes, and store the pair. -/
def fmStep (d : Dict) (line : List Char) : Dict :=
  if ':' ∈ line then
    let k := line.takeWhile (fun c => c ≠ ':')
    let v := (line.dropWhile (fun c => c ≠ ':')).drop 1
    let v1 := pyStrip (v.takeWhile (fun c => c ≠ '#'))
    dictInsert d (pyStrip k) (stripQuotes v1)
  else d

/-- The loop over `frontmatter_text.split('\n')`. -/
def parseFMLines (lines : List (List Char)) : Dict :=
  lines.foldl fmStep []

/-- `parse_frontmatter`: returns the front-matter dict and the body. -/
def parse_frontmatter (content : List Char) : Dict × List Char :=
  match matchFrontmatter content with
  | some (fmText, body) => (parseFMLines (splitLines fmText), body)
  | none => ([], content)

/-! ## Markdown converter (`markdown_to_confluence_storage`) -/

/-- Oracle for the filesystem operations used by the image stage:
`Path.is_absolute`, resolution of a relative path against the markdown
file's directory (`(md_file_path.parent / p).resolve()`), `Path.exists`,
and `Path.name` (the base name). -/
structure FsModel where
  isAbsolute : List Char → Bool
  resolveInBase : List Char → List Char
  pathExists : List Char → Bool
  fileName : List Char → List Char

/-- The lazy group `(.*?)` of `\((.*?)\)`: shortest run of non-newline
characters followed by `)`.  Returns the group and the remainder. -/
def matchImgPath : List Char → Option (List Char × List Char)
  | [] => none
  | c :: rest =>
    if c = ')' then some ([], rest)
    else if c = '\n' then none
    else (matchImgPath rest).map (fun x => (c :: x.1, x.2))

/-- The lazy groups of `(.*?)\]\((.*?)\)` after the opening `![`:
Python's backtracking closes the alt group at the first `](` that is
followed by a closable path group, absorbing earlier `]`s into the alt
text.  Returns `(alt, path, rest)`. -/
def matchImgAlt : List Char → Option (List Char × List Char × List Char)
  | [] => none
  | c :: rest =>
    match (if c = ']' ∧ rest.take 1 = ['('] then matchImgPath (rest.drop 1)
           else none) with
    | some (p, r) => some ([], p, r)
    | none =>
      if c = '\n' then none
      else (matchImgAlt rest).map (fun x => (c :: x.1, x.2.1, x.2.2))

/-- `image_replace`, the replacement callback of the image stage.  The
`fs` argument is `some _` exactly when the caller passed both
`md_file_path` and an `images_to_upload` list (as `process_markdown_file`
always does).  Returns the replacement text, the paths appended to
`images_to_upload`, and the "Image not found" warnings printed.  The alt
text group is bound but never used by the source callback. -/
def imageReplace (fs : Option FsModel) (_alt path : List Char) :
    List Char × List (List Char) × List (List Char) :=
  if listStartsWith ("http://".toList) path ∨ listStartsWith ("https://".toList) path then
    ("<ac:image><ri:url ri:value=\"".toList ++ path ++ "\" /></ac:image>".toList, [], [])
  else
    match fs with
    | some m =>
      let full := if m.isAbsolute path then path else m.resolveInBase path
      if m.pathExists full then
        ("<ac:image><ri:attachment ri:filename=\"".toList ++ m.fileName full
           ++ "\" /></ac:image>".toList, [full], [])
      else
        ("<p><em>Image not found: ".toList ++ path ++ "</em></p>".toList, [], [path])
    | none => ("<p><em>Image: ".toList ++ path ++ "</em></p>".toList, [], [])

/-- The scan of `re.sub(r'!\[(.*?)\]\((.*?)\)', image_replace, content)`.
`alt` is ignored by the callback, matching the source.  The fuel is the
remaining input length (one unit per scanned position suffices). -/
def imageAux (fs : Option FsModel) :
    Nat → List Char → List Char × List (List Char) × List (List Char)
  | _, [] => ([], [], [])
  | 0, l => (l, [], [])
  | fuel + 1, c :: rest =>
    if c = '!' ∧ rest.take 1 = ['['] then
      match matchImgAlt (rest.drop 1) with
      | some (a, p, r) =>
        let rep := imageReplace fs a p
        let q := imageAux fs fuel r
        (rep.1 ++ q.1, rep.2.1 ++ q.2.1, rep.2.2 ++ q.2.2)
      | none =>
        let q := imageAux fs fuel rest
        (c :: q.1, q.2)
    else
      let q := imageAux fs fuel rest
      (c :: q.1, q.2)

/-- The image stage (stage 1 of the converter). -/
def imageStage (fs : Option FsModel) (l : List Char) :
    List Char × List (List Char) × List (List Char) :=
  imageAux fs l.length l

/-- `<hn>` for the heading replacement templates. -/
def hOpen (n : Nat) : List Char := '<' :: 'h' :: Nat.digitChar n :: ['>']

/-- `</hn>` for the heading replacement templates. -/
def hClose (n : Nat) : List Char := '<' :: '/' :: 'h' :: Nat.digitChar n :: ['>']

/-- Head-of-list whitespace test (`\s` applied to the next character). -/
def headIsSpace : List Char → Bool
  | [] => false
  | c :: _ => pyIsSpace c

/-- The scan of `re.sub(r'^#..#\s+(.*?)$', ..., flags=re.MULTILINE)` with
`n` hashes.  The Boolean records whether the position is a line start
(`^`).  On a match, the greedy `\s+` consumes the maximal whitespace run
(which may cross newlines) and the lazy `(.*?)$` is the remainder of the
then-current line. -/
def headingAux (n : Nat) : Nat → Bool → List Char → List Char
  | _, _, [] => []
  | 0, _, l => l
  | fuel + 1, atStart, c :: rest =>
    if atStart = true ∧ (c :: rest).take n = List.replicate n '#'
        ∧ headIsSpace ((c :: rest).drop n) = true then
      let l2 := ((c :: rest).drop n).dropWhile pyIsSpace
      hOpen n ++ l2.takeWhile (fun x => x ≠ '\n') ++ hClose n
        ++ headingAux n fuel false (l2.dropWhile (fun x => x ≠ '\n'))
    else c :: headingAux n fuel (c = '\n') rest

/-- One heading substitution pass. -/
def headingSub (n : Nat) (l : List Char) : List Char :=
  headingAux n l.length true l

/-- The six heading passes, applied from `######` down to `#`
(longest prefix first, as in the source). -/
def headingPipeline (l : List Char) : List Char :=
  headingSub 1 (headingSub 2 (headingSub 3 (headingSub 4 (headingSub 5 (headingSub 6 l)))))

/-- The lazy group of `d(.*?)d` for a delimiter `d`: shortest run of
non-newline characters followed by `d`. -/
def lazyUpToDelim (d : List Char) : List Char → Option (List Char × List Char)
  | [] => none
  | c :: rest =>
    if listStartsWith d (c :: rest) then some ([], (c :: rest).drop d.length)
    else if c = '\n' then none
    else (lazyUpToDelim d rest).map (fun x => (c :: x.1, x.2))

/-- The scan of `re.sub(d + '(.*?)' + d, openT + r'\1' + closeT, content)`
for a literal delimiter `d` (used for `**`, `__`, `*`, `_` and backtick). -/
def subDelimAux (d openT closeT : List Char) : Nat → List Char → List Char
  | _, [] => []
  | 0, l => l
  | fuel + 1, c :: rest =>
    if listStartsWith d (c :: rest) then
      match lazyUpToDelim d ((c :: rest).drop d.length) with
      | some (g, r) => openT ++ g ++ closeT ++ subDelimAux d openT closeT fuel r
      | none => c :: subDelimAux d openT closeT fuel rest
    else c :: subDelimAux d openT closeT fuel rest

/-- One delimiter substitution pass. -/
def subDelim (d openT closeT : List Char) (l : List Char) : List Char :=
  subDelimAux d openT closeT l.length l

/-- `re.sub(r'\*\*(.*?)\*\*', r'<strong>\1</strong>', content)`. -/
def boldStarStage (l : List Char) : List Char :=
  subDelim ("**".toList) ("<strong>".toList) ("</strong>".toList) l

/-- `re.sub(r'__(.*?)__', r'<strong>\1</strong>', content)`. -/
def boldUnderStage (l : List Char) : List Char :=
  subDelim ("__".toList) ("<strong>".toList) ("</strong>".toList) l

/-- `re.sub(r'\*(.*?)\*', r'<em>\1</em>', content)`. -/
def italicStarStage (l : List Char) : List Char :=
  subDelim ("*".toList) ("<em>".toList) ("</em>".toList) l

/-- `re.sub(r'_(.*?)_', r'<em>\1</em>', content)`. -/
def italicUnderStage (l : List Char) : List Char :=
  subDelim ("_".toList) ("<em>".toList) ("</em>".toList) l

/-- Python `\w` (ASCII part): letters, digits and underscore. -/
def isWordChar (c : Char) : Bool :=
  c.isAlphanum ∨ c = '_'

/-- `code_block_replace`: the code-block replacement template, with the
`lang or 'none'` fallback for an absent language tag. -/
def codeBlockHtml (lang body : List Char) : List Char :=
  "<ac:structured-macro ac:name=\"code\"><ac:parameter ac:name=\"language\">".toList
    ++ (if lang.isEmpty then "none".toList else lang)
    ++ "</ac:parameter><ac:plain-text-body><![CDATA[".toList
    ++ body
    ++ "]]></ac:plain-text-body></ac:structured-macro>".toList

/-- The lazy group of `(.*?)` with DOTALL up to a closing triple
backtick: shortest run of any characters (newlines included) followed by
three backticks. -/
def lazyUpToTicks : List Char → Option (List Char × List Char)
  | [] => none
  | c :: rest =>
    if listStartsWith ("```".toList) (c :: rest) then some ([], rest.drop 2)
    else (lazyUpToTicks rest).map (fun x => (c :: x.1, x.2))

/-- The scan of
`re.sub(r'```(\w*)\n(.*?)```', code_block_replace, content, flags=re.DOTALL)`:
three backticks, a greedy run of word characters (the language tag), a
literal newline, then the lazy body up to the next three backticks. -/
def codeAux : Nat → List Char → List Char
  | _, [] => []
  | 0, l => l
  | fuel + 1, c :: rest =>
    if listStartsWith ("```".toList) (c :: rest) then
      let l1 := rest.drop 2
      let lang := l1.takeWhile isWordChar
      let l2 := l1.dropWhile isWordChar
      if l2.take 1 = ['\n'] then
        match lazyUpToTicks (l2.drop 1) with
        | some (body, r) => codeBlockHtml lang body ++ codeAux fuel r
        | none => c :: codeAux fuel rest
      else c :: codeAux fuel rest
    else c :: codeAux fuel rest

/-- The code-block stage. -/
def codeStage (l : List Char) : List Char :=
  codeAux l.length l

/-- `re.sub(r'`(.*?)`', r'<code>\1</code>', content)`. -/
def inlineCodeStage (l : List Char) : List Char :=
  subDelim ("`".toList) ("<code>".toList) ("</code>".toList) l

/-- The grouping test of the table loop:
`'|' in line and line.strip().startswith('|')`. -/
def lineIsTable (l : List Char) : Bool :=
  l.contains '|' && listStartsWith ['|'] (pyStrip l)

/-- `[cell.strip() for cell in line.split('|')[1:-1]]`. -/
def rowCells (line : List Char) : List (List Char) :=
  (((splitOnChar '|' line).drop 1).dropLast).map pyStrip

/-- `<th>` cell. -/
def thCell (c : List Char) : List Char := "<th>".toList ++ c ++ "</th>".toList

/-- `<td>` cell. -/
def tdCell (c : List Char) : List Char := "<td>".toList ++ c ++ "</td>".toList

/-- `convert_table`: fewer than two rows are joined back unchanged;
otherwise row 0 is the header, row 1 (the separator) is discarded, and
rows from index 2 are data rows. -/
def convert_table (table_lines : List (List Char)) : List Char :=
  if table_lines.length < 2 then intercalateNl table_lines
  else
    "<table><tbody>".toList
      ++ "<tr>".toList ++ concatAll ((rowCells (table_lines.headD [])).map thCell) ++ "</tr>".toList
      ++ concatAll (((table_lines.drop 2).map rowCells).map
           (fun row => "<tr>".toList ++ concatAll (row.map tdCell) ++ "</tr>".toList))
      ++ "</tbody></table>".toList

/-- The table-grouping loop over the lines.  The `Option` argument is the
`in_table`/`table_rows` state (`some rows` iff `in_table`). -/
def tableAux : Option (List (List Char)) → List (List Char) → List (List Char)
  | none, [] => []
  | some rows, [] => [convert_table rows]
  | none, l :: ls =>
    if lineIsTable l then tableAux (some [l]) ls
    else l :: tableAux none ls
  | some rows, l :: ls =>
    if lineIsTable l then tableAux (some (rows ++ [l])) ls
    else convert_table rows :: l :: tableAux none ls

/-- The table stage: split into lines, group and convert table blocks,
join with newlines. -/
def tableStage (l : List Char) : List Char :=
  intercalateNl (tableAux none (splitLines l))

/-- `re.sub(r'^---+$', r'<hr />', content, flags=re.MULTILINE)` acting on
one line: a line consisting of three or more hyphens becomes `<hr />`. -/
def hrLine (l : List Char) : List Char :=
  if 3 ≤ l.length ∧ l.all (fun c => c = '-') then "<hr />".toList else l

/-- The horizontal-rule stage. -/
def hrStage (l : List Char) : List Char :=
  intercalateNl ((splitLines l).map hrLine)

/-- One paragraph of the paragraph stage: strip, and wrap in `<p>` when
nonempty and not already starting with `<`. -/
def paraFmt (p : List Char) : List Char :=
  let s := pyStrip p
  if s ≠ [] ∧ s.take 1 ≠ ['<'] then "<p>".toList ++ s ++ "</p>".toList else s

/-- The paragraph stage: split on blank lines (`'\n\n'`), format each
paragraph, join with single newlines. -/
def paraStage (l : List Char) : List Char :=
  intercalateNl ((splitNlNl l).map paraFmt)

/-- `markdown_to_confluence_storage`.  Returns the storage-format markup
together with the collected `images_to_upload` and the "Image not found"
warnings.  (The Python signature also takes a `page_id` argument, but the
function body never reads it, so it is omitted here; the `md_file_path`
and `images_to_upload` arguments are both present or both absent in every
call site, which the single `fs : Option FsModel` argument models.) -/
def markdown_to_confluence_storage (fs : Option FsModel) (md : List Char) :
    List Char × List (List Char) × List (List Char) :=
  let s1 := imageStage fs md
  (paraStage (hrStage (tableStage (inlineCodeStage (codeStage
     (italicUnderStage (italicStarStage (boldUnderStage (boldStarStage
       (headingPipeline s1.1))))))))), s1.2.1, s1.2.2)

/-! ## Page reconciler (`process_markdown_file`) -/

/-- The fields of a page representation that the script reads:
`id`, `title` and `version.number`. -/
structure RemotePage where
  id : List Char
  title : List Char
  version : Nat
deriving DecidableEq, Repr

/-- Oracle for the remote Confluence API.  `getResp` is the result of
`GET /rest/api/content/{id}` (`none` covers 404, any other non-200
status, and transport errors — all of which `get_page_by_id` maps to
`None`).  `searchResp` is the result list of the title/space query
(`none` for a non-200 status or a transport error).  `createResp` and
`updateResp` are the page representations returned by a successful
create/update (`none` on failure); `updateResp` receives the version
number actually sent in the request body. -/
structure Remote where
  getResp : List Char → Option RemotePage
  searchResp : List Char → List Char → Option (List RemotePage)
  createResp : List Char → List Char → List Char → Option (List Char) → Option RemotePage
  updateResp : List Char → List Char → List Char → Nat → Option RemotePage

/-- The remote calls the script can issue, with the request data that the
claims talk about.  `update` carries the version number placed in the
request body; `create` carries the `ancestors` parent when one is sent. -/
inductive ApiCall where
  | getPage (id : List Char)
  | search (spaceKey title : List Char)
  | create (spaceKey title content : List Char) (parent : Option (List Char))
  | update (id title content : List Char) (version : Nat)
  | upload (pageId path : List Char)
deriving DecidableEq, Repr

/-- The distinct exit paths of `process_markdown_file` (the source
returns a bare bool; the distinction between them is observable in the
printed status messages). -/
inductive SyncOutcome where
  | updated
  | created
  | skippedIdNotFound
  | updateFailed
  | createFailed
deriving DecidableEq, Repr

/-- The boolean actually returned by `process_markdown_file`
(`result is not None`). -/
def outcomeSuccess : SyncOutcome → Bool
  | .updated => true
  | .created => true
  | _ => false

/-- `search_page_by_title`: on a 200 response, return the first result
whose title matches exactly (case-sensitively); otherwise `None`. -/
def search_page_by_title (r : Remote) (space_key title : List Char) :
    Option RemotePage :=
  match r.searchResp space_key title with
  | some results => results.find? (fun p => p.title = title)
  | none => none

/-- The version number `update_page` places in the request body:
the supplied current version plus one (`{"number": version + 1}`). -/
def update_page_sentVersion (version : Nat) : Nat := version + 1

/-- Front-matter key `confluence_page_id`. -/
def pidKey : List Char := "confluence_page_id".toList

/-- Front-matter key `confluence_title`. -/
def titleKey : List Char := "confluence_title".toList

/-- Front-matter key `confluence_space_key`. -/
def spaceKeyKey : List Char := "confluence_space_key".toList

/-- Front-matter key `confluence_parent_id`. -/
def parentKey : List Char := "confluence_parent_id".toList

/-- The front matter of a file's content. -/
def fmOf (content : List Char) : Dict := (parse_frontmatter content).1

/-- The body of a file's content (after front matter). -/
def bodyOf (content : List Char) : List Char := (parse_frontmatter content).2

/-- `frontmatter.get('confluence_title', md_file.stem)`. -/
def titleOf (stem content : List Char) : List Char :=
  (dictFind (fmOf content) titleKey).getD stem

/-- `frontmatter.get('confluence_space_key', SPACE_KEY)`. -/
def spaceOf (SPACE content : List Char) : List Char :=
  (dictFind (fmOf content) spaceKeyKey).getD SPACE

/-- `frontmatter.get('confluence_parent_id', PARENT_ID)` followed by
`create_page`'s `if parent_id:` truthiness test: an empty parent id
sends no `ancestors` entry. -/
def parentOptOf (PARENT content : List Char) : Option (List Char) :=
  let parent := (dictFind (fmOf content) parentKey).getD PARENT
  if parent.isEmpty then none else some parent

/-- The first conversion pass of `process_markdown_file` (the second
pass, made when images were discovered, passes the same `md_file_path`
and a `page_id` that the converter never reads, so it returns the same
value). -/
def convOf (fsm : FsModel) (content : List Char) :
    List Char × List (List Char) × List (List Char) :=
  markdown_to_confluence_storage (some fsm) (bodyOf content)

/-- `process_markdown_file`, as a function of the remote oracle, the
filesystem oracle, the configured default space/parent, the file stem
and the file content.  Returns the outcome together with the ordered
trace of remote calls issued. -/
def process_markdown_file (r : Remote) (fsm : FsModel)
    (SPACE PARENT stem content : List Char) : SyncOutcome × List ApiCall :=
  let title := titleOf stem content
  let conv := convOf fsm content
  let cc := conv.1
  let imgs := conv.2.1
  match dictFind (fmOf content) pidKey with
  | some pid =>
    match r.getResp pid with
    | some page =>
      match r.updateResp pid title cc (update_page_sentVersion page.version) with
      | some _ =>
        (.updated, .getPage pid :: .update pid title cc (update_page_sentVersion page.version)
          :: (if imgs.isEmpty then [] else imgs.map (ApiCall.upload pid)))
      | none =>
        (.updateFailed, [.getPage pid, .update pid title cc (update_page_sentVersion page.version)])
    | none => (.skippedIdNotFound, [.getPage pid])
  | none =>
    let sp := spaceOf SPACE content
    let po := parentOptOf PARENT content
    match search_page_by_title r sp title with
    | some page =>
      match r.updateResp page.id title cc (update_page_sentVersion page.version) with
      | some _ =>
        (.updated, .search sp title :: .update page.id title cc (update_page_sentVersion page.version)
          :: (if imgs.isEmpty then [] else imgs.map (ApiCall.upload page.id)))
      | none =>
        (.updateFailed, [.search sp title, .update page.id title cc (update_page_sentVersion page.version)])
    | none =>
      match r.createResp sp title cc po with
      | some newPage =>
        if imgs.isEmpty then (.created, [.search sp title, .create sp title cc po])
        else
          (.created, .search sp title :: .create sp title cc po
            :: (imgs.map (ApiCall.upload newPage.id)
                ++ [.update newPage.id title cc (update_page_sentVersion newPage.version)]))
      | none => (.createFailed, [.search sp title, .create sp title cc po])

/-- The success/failure tally of `process_markdown_files` over a list of
(stem, content) pairs. -/
def process_markdown_files (r : Remote) (fsm : FsModel)
    (SPACE PARENT : List Char) (files : List (List Char × List Char)) : Nat × Nat :=
  files.foldl
    (fun acc f =>
      if outcomeSuccess (process_markdown_file r fsm SPACE PARENT f.1 f.2).1 then
        (acc.1 + 1, acc.2)
      else (acc.1, acc.2 + 1))
    (0, 0)

/-- The process exit code of `main`: 1 when any file failed, else 0. -/
def mainExitCode (counts : Nat × Nat) : Nat :=
  if 0 < counts.2 then 1 else 0

/-! ## Basic lemmas about the string helpers -/

theorem length_dropWhile_le' (p : Char → Bool) (l : List Char) :
    (l.dropWhile p).length ≤ l.length := by
  induction l with
  | nil => simp
  | cons c r ih => by_cases h : p c <;> simp [List.dropWhile_cons, h] <;> omega

theorem listStartsWith_length {d l : List Char} (h : listStartsWith d l = true) :
    d.length ≤ l.length := by
  induction d generalizing l with
  | nil => simp
  | cons a d ih =>
    cases l with
    | nil => simp [listStartsWith] at h
    | cons c cs =>
      simp only [listStartsWith, Bool.and_eq_true] at h
      have := ih h.2
      simp; omega

theorem listStartsWith_iff (d l : List Char) :
    listStartsWith d l = true ↔ ∃ r, l = d ++ r := by
  induction d generalizing l with
  | nil => simp [listStartsWith]
  | cons a d ih =>
    cases l with
    | nil =>
      simp only [listStartsWith]
      constructor
      · intro h; cases h
      · rintro ⟨r, hr⟩; cases hr
    | cons c cs =>
      simp only [listStartsWith, Bool.and_eq_true, decide_eq_true_eq, ih, List.cons_append,
        List.cons.injEq]
      constructor
      · rintro ⟨rfl, r, rfl⟩; exact ⟨r, rfl, rfl⟩
      · rintro ⟨r, rfl, rfl⟩; exact ⟨rfl, r, rfl⟩

theorem listStartsWith_append (d r : List Char) :
    listStartsWith d (d ++ r) = true := by
  rw [listStartsWith_iff]; exact ⟨r, rfl⟩

theorem listStartsWith_false_of_head {d l : List Char} {a c : Char} {ds cs : List Char}
    (hd : d = a :: ds) (hl : l = c :: cs) (hne : c ≠ a) :
    listStartsWith d l = false := by
  subst hd; subst hl
  simp only [listStartsWith, Bool.and_eq_false_iff]
  left; simp [hne.symm]

theorem takeWhile_append_all {p : Char → Bool} {a : List Char} (l : List Char)
    (h : ∀ c ∈ a, p c = true) : (a ++ l).takeWhile p = a ++ l.takeWhile p := by
  induction a with
  | nil => simp
  | cons c r ih =>
    have hc : p c = true := h c (by simp)
    simp only [List.cons_append, List.takeWhile_cons, hc, if_true]
    rw [ih (fun x hx => h x (by simp [hx]))]

theorem dropWhile_append_all {p : Char → Bool} {a : List Char} (l : List Char)
    (h : ∀ c ∈ a, p c = true) : (a ++ l).dropWhile p = l.dropWhile p := by
  induction a with
  | nil => simp
  | cons c r ih =>
    have hc : p c = true := h c (by simp)
    simp only [List.cons_append, List.dropWhile_cons, hc, if_true]
    exact ih (fun x hx => h x (by simp [hx]))

theorem takeWhile_eq_self_of {p : Char → Bool} {l : List Char}
    (h : ∀ c ∈ l, p c = true) : l.takeWhile p = l :=
  List.takeWhile_eq_self_iff.2 h

theorem dropWhile_eq_nil_of {p : Char → Bool} {l : List Char}
    (h : ∀ c ∈ l, p c = true) : l.dropWhile p = [] := by
  induction l with
  | nil => simp
  | cons c r ih =>
    simp only [List.dropWhile_cons, h c (by simp), if_true]
    exact ih (fun x hx => h x (by simp [hx]))

theorem dropWhile_head_false {p : Char → Bool} {l : List Char}
    (h : ∀ c, l.head? = some c → p c = false) : l.dropWhile p = l := by
  cases l with
  | nil => simp
  | cons c r => simp [List.dropWhile_cons, h c rfl]

theorem takeWhile_ne_of_not_mem {l : List Char} {s : Char} (h : s ∉ l) :
    l.takeWhile (fun c => c ≠ s) = l := by
  apply takeWhile_eq_self_of
  intro c hc
  simp only [ne_eq, decide_eq_true_eq]
  rintro rfl; exact h hc

theorem pyStrip_eq_self {l : List Char}
    (h1 : ∀ c, l.head? = some c → pyIsSpace c = false)
    (h2 : ∀ c, l.getLast? = some c → pyIsSpace c = false) :
    pyStrip l = l := by
  unfold pyStrip
  rw [dropWhile_head_false h1]
  rw [dropWhile_head_false, List.reverse_reverse]
  intro c hc
  apply h2
  rwa [List.head?_reverse] at hc

/-! ## Lemmas about splitting and joining -/

theorem splitOnChar_ne_nil (sep : Char) (l : List Char) : splitOnChar sep l ≠ [] := by
  induction l with
  | nil => simp [splitOnChar]
  | cons c r ih =>
    by_cases h : c = sep
    · simp [splitOnChar, h]
    · simp only [splitOnChar, if_neg h]
      cases hs : splitOnChar sep r with
      | nil => exact absurd hs ih
      | cons a b => simp

theorem intercalateNl_splitOnChar (l : List Char) :
    intercalateNl (splitOnChar '\n' l) = l := by
  induction l with
  | nil => simp [splitOnChar, intercalateNl]
  | cons c r ih =>
    by_cases h : c = '\n'
    · subst h
      simp only [splitOnChar, if_true]
      cases hs : splitOnChar '\n' r with
      | nil => exact absurd hs (splitOnChar_ne_nil _ _)
      | cons a b =>
        rw [hs] at ih
        simp [intercalateNl, ih]
    · simp only [splitOnChar, if_neg h]
      cases hs : splitOnChar '\n' r with
      | nil => exact absurd hs (splitOnChar_ne_nil _ _)
      | cons a b =>
        rw [hs] at ih
        cases b with
        | nil => simpa [intercalateNl] using congrArg (fun x => c :: x) ih
        | cons x t => simpa [intercalateNl] using congrArg (fun y => c :: y) ih

theorem intercalateNl_splitLines (l : List Char) :
    intercalateNl (splitLines l) = l :=
  intercalateNl_splitOnChar l

theorem splitOnChar_eq_self {sep : Char} {l : List Char} (h : sep ∉ l) :
    splitOnChar sep l = [l] := by
  induction l with
  | nil => simp [splitOnChar]
  | cons c r ih =>
    have hc : c ≠ sep := by rintro rfl; exact h (by simp)
    have hr : sep ∉ r := fun hx => h (by simp [hx])
    simp [splitOnChar, hc, ih hr]

theorem splitOnChar_append_left {s : Char} {a : List Char} (l : List Char) (h : s ∉ a) :
    ∃ t, splitOnChar s l = (splitOnChar s l).headD [] :: t ∧
      splitOnChar s (a ++ l) = (a ++ (splitOnChar s l).headD []) :: t := by
  induction a with
  | nil =>
    cases hs : splitOnChar s l with
    | nil => exact absurd hs (splitOnChar_ne_nil _ _)
    | cons x t => refine ⟨t, ?_, ?_⟩ <;> simp [hs]
  | cons c r ih =>
    have hc : c ≠ s := by rintro rfl; exact h (by simp)
    have hr : s ∉ r := fun hx => h (by simp [hx])
    obtain ⟨t, h1, h2⟩ := ih hr
    refine ⟨t, h1, ?_⟩
    simp only [List.cons_append, splitOnChar, if_neg hc, List.append_eq, h2]

theorem splitOnChar_append_right {s : Char} {b : List Char} (l : List Char) (h : s ∉ b) :
    ∃ I L, splitOnChar s l = I ++ [L] ∧ splitOnChar s (l ++ b) = I ++ [L ++ b] := by
  induction l with
  | nil => exact ⟨[], [], by simp [splitOnChar], by simpa using splitOnChar_eq_self h⟩
  | cons c r ih =>
    obtain ⟨I, L, h1, h2⟩ := ih
    by_cases hc : c = s
    · subst hc
      exact ⟨[] :: I, L, by simp [splitOnChar, h1], by simp [splitOnChar, h2]⟩
    · cases I with
      | nil =>
        refine ⟨[], c :: L, ?_, ?_⟩
        · simp only [splitOnChar, if_neg hc, List.nil_append, List.append_eq] at h1 ⊢
          rw [h1]
        · simp only [List.cons_append, splitOnChar, if_neg hc, List.nil_append,
            List.append_eq] at h2 ⊢
          rw [h2]
      | cons x I' =>
        refine ⟨(c :: x) :: I', L, ?_, ?_⟩
        · simp only [splitOnChar, if_neg hc, List.cons_append, List.append_eq] at h1 ⊢
          rw [h1]
        · simp only [List.cons_append, splitOnChar, if_neg hc, List.append_eq] at h2 ⊢
          rw [h2]

theorem mem_splitOnChar_sub {s : Char} {l x : List Char} {c : Char}
    (hx : x ∈ splitOnChar s l) (hc : c ∈ x) : c ∈ l := by
  induction l generalizing x with
  | nil =>
    simp only [splitOnChar, List.mem_singleton] at hx
    subst hx; cases hc
  | cons a r ih =>
    by_cases ha : a = s
    · simp only [splitOnChar, if_pos ha, List.mem_cons] at hx
      rcases hx with rfl | hx
      · cases hc
      · exact List.mem_cons_of_mem _ (ih hx hc)
    · simp only [splitOnChar, if_neg ha] at hx
      cases hs : splitOnChar s r with
      | nil => exact absurd hs (splitOnChar_ne_nil _ _)
      | cons h t =>
        rw [hs] at hx
        simp only [List.mem_cons] at hx
        rcases hx with rfl | hx
        · rcases List.mem_cons.1 hc with rfl | hc2
          · simp
          · exact List.mem_cons_of_mem _ (ih (by rw [hs]; simp) hc2)
        · exact List.mem_cons_of_mem _ (ih (by rw [hs]; simp [hx]) hc)

theorem hasDoubleNl_cons_cons (c x : Char) (l : List Char) :
    hasDoubleNl (c :: x :: l) = ((c = '\n' && x = '\n') || hasDoubleNl (x :: l)) := by
  by_cases hc : c = '\n' <;> by_cases hx : x = '\n' <;> subst_vars <;>
    rw [hasDoubleNl.eq_def] <;> simp_all

theorem splitNlNl_cons_of_not_double {c : Char} {r : List Char}
    (h : ¬ (c = '\n' ∧ r.take 1 = ['\n'])) :
    splitNlNl (c :: r) = (match splitNlNl r with
      | [] => [[c]]
      | h :: t => (c :: h) :: t) := by
  rw [splitNlNl.eq_def]
  split
  · rename_i heq; exact (List.cons_ne_nil _ _ heq).elim
  · rename_i rest heq
    exfalso
    apply h
    refine ⟨by injection heq, ?_⟩
    have hr : r = '\n' :: rest := by injection heq
    rw [hr]; rfl
  · rename_i c2 rest2 _ heq
    have h1 : c2 = c := by injection heq with e1 _; exact e1.symm
    have h2 : rest2 = r := by injection heq with _ e2; exact e2.symm
    rw [h1, h2]

theorem splitNlNl_eq_self {l : List Char} (h : hasDoubleNl l = false) :
    splitNlNl l = [l] := by
  induction l with
  | nil => simp [splitNlNl]
  | cons c r ih =>
    have hcr : ¬ (c = '\n' ∧ r.take 1 = ['\n']) := by
      rintro ⟨rfl, hr⟩
      cases r with
      | nil => simp at hr
      | cons x t =>
        simp only [List.take, List.cons.injEq] at hr
        rw [hasDoubleNl_cons_cons] at h
        simp [hr.1] at h
    have hr2 : hasDoubleNl r = false := by
      cases r with
      | nil => rfl
      | cons x t =>
        rw [hasDoubleNl_cons_cons] at h
        exact (Bool.or_eq_false_iff.1 h).2
    rw [splitNlNl_cons_of_not_double hcr, ih hr2]

theorem hasDoubleNl_append {a b : List Char}
    (ha : hasDoubleNl a = false) (hb : hasDoubleNl b = false)
    (hmid : a.getLast? = some '\n' → b.head? = some '\n' → False) :
    hasDoubleNl (a ++ b) = false := by
  induction a with
  | nil => simpa using hb
  | cons c r ih =>
    cases r with
    | nil =>
      cases b with
      | nil =>
        simp only [List.append_nil]
        rw [hasDoubleNl.eq_def]; split <;> simp_all
      | cons x t =>
        rw [List.singleton_append, hasDoubleNl_cons_cons]
        by_cases hc : c = '\n' <;> by_cases hx : x = '\n'
        · subst hc; subst hx; exact (hmid (by simp) (by simp)).elim
        all_goals simp_all
    | cons x t =>
      rw [hasDoubleNl_cons_cons] at ha
      obtain ⟨ha1, ha2⟩ := Bool.or_eq_false_iff.1 ha
      have hlast : (x :: t).getLast? = (c :: x :: t).getLast? := by
        simp [List.getLast?_cons_cons]
      have hrec := ih ha2 (by rw [hlast]; exact hmid)
      simp only [List.cons_append] at hrec ⊢
      rw [hasDoubleNl_cons_cons]
      simp [ha1, hrec]

theorem hasDoubleNl_of_no_nl {a : List Char} (h : '\n' ∉ a) :
    hasDoubleNl a = false := by
  induction a with
  | nil => rfl
  | cons c r ih =>
    have hc : c ≠ '\n' := by rintro rfl; exact h (by simp)
    have hr := ih (fun hx => h (by simp [hx]))
    cases r with
    | nil => rw [hasDoubleNl.eq_def]; split <;> simp_all
    | cons x t => rw [hasDoubleNl_cons_cons]; simp [hc, hr]

/-! ## Length bounds for the lazy matchers, and fuel irrelevance -/

theorem matchImgPath_length {l p r : List Char} (h : matchImgPath l = some (p, r)) :
    p.length + 1 + r.length = l.length := by
  induction l generalizing p r with
  | nil => simp [matchImgPath] at h
  | cons c rest ih =>
    by_cases hc : c = ')'
    · simp only [matchImgPath, if_pos hc, Option.some.injEq, Prod.mk.injEq] at h
      obtain ⟨rfl, rfl⟩ := h
      simp only [List.length_nil, List.length_cons]
      omega
    · by_cases hn : c = '\n'
      · simp [matchImgPath, hc, hn] at h
      · simp only [matchImgPath, if_neg hc, if_neg hn, Option.map_eq_some']  at h
        obtain ⟨⟨p1, r1⟩, hm, heq⟩ := h
        cases heq
        have := ih hm
        simp only [List.length_cons]
        omega

theorem matchImgAlt_cons (c : Char) (rest : List Char) :
    matchImgAlt (c :: rest) =
      (match (if c = ']' ∧ rest.take 1 = ['('] then matchImgPath (rest.drop 1)
             else none) with
       | some (p, r) => some ([], p, r)
       | none =>
         if c = '\n' then none
         else (matchImgAlt rest).map (fun x => (c :: x.1, x.2.1, x.2.2))) := rfl

theorem matchImgAlt_length {l a p r : List Char}
    (h : matchImgAlt l = some (a, p, r)) :
    a.length + p.length + 3 + r.length = l.length := by
  induction l generalizing a p r with
  | nil => simp [matchImgAlt] at h
  | cons c rest ih =>
    rw [matchImgAlt_cons] at h
    rcases hcl : (if c = ']' ∧ rest.take 1 = ['('] then matchImgPath (rest.drop 1)
        else none) with _ | ⟨p1, r1⟩
    · rw [hcl] at h
      simp only at h
      by_cases hn : c = '\n'
      · simp [hn] at h
      · simp only [if_neg hn, Option.map_eq_some'] at h
        obtain ⟨⟨a1, p1, r1⟩, hm, heq⟩ := h
        cases heq
        have := ih hm
        simp only [List.length_cons]
        omega
    · rw [hcl] at h
      simp only [Option.some.injEq, Prod.mk.injEq] at h
      obtain ⟨rfl, rfl, rfl⟩ := h
      by_cases hc : c = ']' ∧ rest.take 1 = ['(']
      · rw [if_pos hc] at hcl
        have hlen := matchImgPath_length hcl
        have hd : (rest.drop 1).length = rest.length - 1 := by simp
        have h1 : 1 ≤ rest.length := by
          rcases rest with _ | ⟨x, t⟩
          · simp at hc
          · simp
        simp only [List.length_cons, List.length_nil]
        omega
      · rw [if_neg hc] at hcl
        cases hcl

theorem lazyUpToDelim_length {d l g r : List Char} (hd : d ≠ [])
    (h : lazyUpToDelim d l = some (g, r)) :
    g.length + d.length + r.length = l.length := by
  induction l generalizing g r with
  | nil => simp [lazyUpToDelim] at h
  | cons c rest ih =>
    by_cases hs : listStartsWith d (c :: rest) = true
    · have hdl := listStartsWith_length hs
      simp only [lazyUpToDelim, hs, if_true, Option.some.injEq, Prod.mk.injEq] at h
      obtain ⟨rfl, rfl⟩ := h
      simp only [List.length_nil, List.length_drop, List.length_cons]
      simp only [List.length_cons] at hdl
      omega
    · rw [lazyUpToDelim.eq_def] at h
      simp only [hs, Bool.false_eq_true, if_false] at h
      by_cases hn : c = '\n'
      · simp [hn] at h
      · simp only [if_neg hn, Option.map_eq_some'] at h
        obtain ⟨⟨g1, r1⟩, hm, heq⟩ := h
        cases heq
        have := ih hm
        simp only [List.length_cons]
        omega

theorem lazyUpToTicks_length {l g r : List Char}
    (h : lazyUpToTicks l = some (g, r)) :
    g.length + 3 + r.length = l.length := by
  induction l generalizing g r with
  | nil => simp [lazyUpToTicks] at h
  | cons c rest ih =>
    by_cases hs : listStartsWith ("```".toList) (c :: rest) = true
    · have hdl := listStartsWith_length hs
      simp only [lazyUpToTicks, hs, if_true, Option.some.injEq, Prod.mk.injEq] at h
      obtain ⟨rfl, rfl⟩ := h
      have h3 : ("```".toList).length = 3 := rfl
      simp only [List.length_nil, List.length_drop, List.length_cons]
      simp only [List.length_cons, h3] at hdl
      omega
    · rw [lazyUpToTicks.eq_def] at h
      simp only [hs, Bool.false_eq_true, if_false, Option.map_eq_some'] at h
      obtain ⟨⟨g1, r1⟩, hm, heq⟩ := h
      cases heq
      have := ih hm
      simp only [List.length_cons]
      omega

theorem imageAux_nil (fs : Option FsModel) (f : Nat) : imageAux fs f [] = ([], [], []) := by
  cases f <;> rfl

theorem imageAux_cons (fs : Option FsModel) (f : Nat) (c : Char) (rest : List Char) :
    imageAux fs (f + 1) (c :: rest) =
      if c = '!' ∧ rest.take 1 = ['['] then
        match matchImgAlt (rest.drop 1) with
        | some (a, p, r) =>
          let rep := imageReplace fs a p
          let q := imageAux fs f r
          (rep.1 ++ q.1, rep.2.1 ++ q.2.1, rep.2.2 ++ q.2.2)
        | none =>
          let q := imageAux fs f rest
          (c :: q.1, q.2)
      else
        let q := imageAux fs f rest
        (c :: q.1, q.2) := rfl

theorem imageAux_fuelIrrel (fs : Option FsModel) :
    ∀ f₁ f₂ l, l.length ≤ f₁ → l.length ≤ f₂ →
      imageAux fs f₁ l = imageAux fs f₂ l := by
  intro f₁
  induction f₁ with
  | zero =>
    intro f₂ l h1 _
    have hl : l = [] := List.eq_nil_of_length_eq_zero (Nat.le_zero.1 h1)
    subst hl
    rw [imageAux_nil, imageAux_nil]
  | succ f ih =>
    intro f₂ l h1 h2
    cases l with
    | nil => rw [imageAux_nil, imageAux_nil]
    | cons c rest =>
      cases f₂ with
      | zero => simp at h2
      | succ f₂' =>
        rw [imageAux_cons, imageAux_cons]
        simp only [List.length_cons] at h1 h2
        by_cases hc : c = '!' ∧ rest.take 1 = ['[']
        · rw [if_pos hc, if_pos hc]
          cases hm : matchImgAlt (rest.drop 1) with
          | none =>
            simp only
            rw [ih f₂' rest (by omega) (by omega)]
          | some x =>
            obtain ⟨a, p, r⟩ := x
            simp only
            have hlen := matchImgAlt_length hm
            simp only [List.length_drop] at hlen
            rw [ih f₂' r (by omega) (by omega)]
        · rw [if_neg hc, if_neg hc]
          simp only
          rw [ih f₂' rest (by omega) (by omega)]

theorem length_dropWhile_lt_of_head {m : List Char} (h : headIsSpace m = true) :
    (m.dropWhile pyIsSpace).length < m.length := by
  cases m with
  | nil => simp [headIsSpace] at h
  | cons d m' =>
    simp only [headIsSpace] at h
    simp only [List.dropWhile_cons, h, if_true]
    have := length_dropWhile_le' pyIsSpace m'
    simp only [List.length_cons]
    omega

theorem headingAux_nil (n f : Nat) (b : Bool) : headingAux n f b [] = [] := by
  cases f <;> rfl

theorem headingAux_cons (n f : Nat) (b : Bool) (c : Char) (rest : List Char) :
    headingAux n (f + 1) b (c :: rest) =
      if b = true ∧ (c :: rest).take n = List.replicate n '#'
          ∧ headIsSpace ((c :: rest).drop n) = true then
        let l2 := ((c :: rest).drop n).dropWhile pyIsSpace
        hOpen n ++ l2.takeWhile (fun x => x ≠ '\n') ++ hClose n
          ++ headingAux n f false (l2.dropWhile (fun x => x ≠ '\n'))
      else c :: headingAux n f (c = '\n') rest := rfl

theorem headingAux_fuelIrrel (n : Nat) :
    ∀ f₁ f₂ (b : Bool) l, l.length ≤ f₁ → l.length ≤ f₂ →
      headingAux n f₁ b l = headingAux n f₂ b l := by
  intro f₁
  induction f₁ with
  | zero =>
    intro f₂ b l h1 _
    have hl : l = [] := List.eq_nil_of_length_eq_zero (Nat.le_zero.1 h1)
    subst hl
    rw [headingAux_nil, headingAux_nil]
  | succ f ih =>
    intro f₂ b l h1 h2
    cases l with
    | nil => rw [headingAux_nil, headingAux_nil]
    | cons c rest =>
      cases f₂ with
      | zero => simp at h2
      | succ f₂' =>
        rw [headingAux_cons, headingAux_cons]
        simp only [List.length_cons] at h1 h2
        by_cases hc : b = true ∧ (c :: rest).take n = List.replicate n '#'
            ∧ headIsSpace ((c :: rest).drop n) = true
        · rw [if_pos hc, if_pos hc]
          simp only
          have hlt := length_dropWhile_lt_of_head hc.2.2
          have hle := length_dropWhile_le' (fun x => decide (x ≠ '\n'))
            (((c :: rest).drop n).dropWhile pyIsSpace)
          have hdn : ((c :: rest).drop n).length ≤ rest.length + 1 := by
            simp only [List.length_drop, List.length_cons]; omega
          rw [ih f₂' false _ (by omega) (by omega)]
        · rw [if_neg hc, if_neg hc]
          rw [ih f₂' (c = '\n') rest (by omega) (by omega)]

theorem subDelimAux_nil (d openT closeT : List Char) (f : Nat) :
    subDelimAux d openT closeT f [] = [] := by
  cases f <;> rfl

theorem subDelimAux_cons (d openT closeT : List Char) (f : Nat) (c : Char) (rest : List Char) :
    subDelimAux d openT closeT (f + 1) (c :: rest) =
      if listStartsWith d (c :: rest) then
        match lazyUpToDelim d ((c :: rest).drop d.length) with
        | some (g, r) => openT ++ g ++ closeT ++ subDelimAux d openT closeT f r
        | none => c :: subDelimAux d openT closeT f rest
      else c :: subDelimAux d openT closeT f rest := rfl

theorem subDelimAux_fuelIrrel (d openT closeT : List Char) (hd : d ≠ []) :
    ∀ f₁ f₂ l, l.length ≤ f₁ → l.length ≤ f₂ →
      subDelimAux d openT closeT f₁ l = subDelimAux d openT closeT f₂ l := by
  intro f₁
  induction f₁ with
  | zero =>
    intro f₂ l h1 _
    have hl : l = [] := List.eq_nil_of_length_eq_zero (Nat.le_zero.1 h1)
    subst hl
    rw [subDelimAux_nil, subDelimAux_nil]
  | succ f ih =>
    intro f₂ l h1 h2
    cases l with
    | nil => rw [subDelimAux_nil, subDelimAux_nil]
    | cons c rest =>
      cases f₂ with
      | zero => simp at h2
      | succ f₂' =>
        rw [subDelimAux_cons, subDelimAux_cons]
        simp only [List.length_cons] at h1 h2
        have hd1 : 1 ≤ d.length := by
          cases d with
          | nil => exact absurd rfl hd
          | cons x xs => simp
        by_cases hs : listStartsWith d (c :: rest) = true
        · rw [if_pos hs, if_pos hs]
          have hsl := listStartsWith_length hs
          simp only [List.length_cons] at hsl
          cases hm : lazyUpToDelim d ((c :: rest).drop d.length) with
          | none =>
            simp only
            rw [ih f₂' rest (by omega) (by omega)]
          | some x =>
            obtain ⟨g, r⟩ := x
            simp only
            have hlen := lazyUpToDelim_length hd hm
            simp only [List.length_drop, List.length_cons] at hlen
            rw [ih f₂' r (by omega) (by omega)]
        · simp only [hs, Bool.false_eq_true, if_false]
          rw [ih f₂' rest (by omega) (by omega)]

theorem codeAux_nil (f : Nat) : codeAux f [] = [] := by
  cases f <;> rfl

theorem codeAux_cons (f : Nat) (c : Char) (rest : List Char) :
    codeAux (f + 1) (c :: rest) =
      if listStartsWith ("```".toList) (c :: rest) then
        let l1 := rest.drop 2
        let lang := l1.takeWhile isWordChar
        let l2 := l1.dropWhile isWordChar
        if l2.take 1 = ['\n'] then
          match lazyUpToTicks (l2.drop 1) with
          | some (body, r) => codeBlockHtml lang body ++ codeAux f r
          | none => c :: codeAux f rest
        else c :: codeAux f rest
      else c :: codeAux f rest := rfl

theorem codeAux_fuelIrrel :
    ∀ f₁ f₂ l, l.length ≤ f₁ → l.length ≤ f₂ → codeAux f₁ l = codeAux f₂ l := by
  intro f₁
  induction f₁ with
  | zero =>
    intro f₂ l h1 _
    have hl : l = [] := List.eq_nil_of_length_eq_zero (Nat.le_zero.1 h1)
    subst hl
    rw [codeAux_nil, codeAux_nil]
  | succ f ih =>
    intro f₂ l h1 h2
    cases l with
    | nil => rw [codeAux_nil, codeAux_nil]
    | cons c rest =>
      cases f₂ with
      | zero => simp at h2
      | succ f₂' =>
        rw [codeAux_cons, codeAux_cons]
        simp only [List.length_cons] at h1 h2
        by_cases hs : listStartsWith ("```".toList) (c :: rest) = true
        · rw [if_pos hs, if_pos hs]
          simp only
          by_cases hnl : ((rest.drop 2).dropWhile isWordChar).take 1 = ['\n']
          · rw [if_pos hnl, if_pos hnl]
            cases hm : lazyUpToTicks (((rest.drop 2).dropWhile isWordChar).drop 1) with
            | none =>
              simp only
              rw [ih f₂' rest (by omega) (by omega)]
            | some y =>
              obtain ⟨body, r⟩ := y
              simp only
              have hlen := lazyUpToTicks_length hm
              have hb : (((rest.drop 2).dropWhile isWordChar).drop 1).length ≤ rest.length := by
                have hw := length_dropWhile_le' isWordChar (rest.drop 2)
                simp only [List.length_drop] at *
                omega
              rw [ih f₂' r (by omega) (by omega)]
          · rw [if_neg hnl, if_neg hnl]
            rw [ih f₂' rest (by omega) (by omega)]
        · simp only [hs, Bool.false_eq_true, if_false]
          rw [ih f₂' rest (by omega) (by omega)]

/-! ## The image stage on a decomposed image reference -/

theorem matchImgPath_complete {p r : List Char} (hp : ')' ∉ p) (hn : '\n' ∉ p) :
    matchImgPath (p ++ ')' :: r) = some (p, r) := by
  induction p with
  | nil => simp [matchImgPath]
  | cons c p' ih =>
    have hc1 : c ≠ ')' := by rintro rfl; exact hp (by simp)
    have hc2 : c ≠ '\n' := by rintro rfl; exact hn (by simp)
    have ih' := ih (fun hx => hp (by simp [hx])) (fun hx => hn (by simp [hx]))
    simp only [List.cons_append, matchImgPath, if_neg hc1, if_neg hc2, List.append_eq,
      ih', Option.map_some']

theorem matchImgAlt_complete {a p r : List Char}
    (ha1 : ']' ∉ a) (ha2 : '\n' ∉ a) (hp1 : ')' ∉ p) (hp2 : '\n' ∉ p) :
    matchImgAlt (a ++ (']' :: '(' :: (p ++ ')' :: r))) = some (a, p, r) := by
  induction a with
  | nil =>
    rw [List.nil_append, matchImgAlt_cons]
    have hcond : (']' : Char) = ']' ∧ ('(' :: (p ++ ')' :: r)).take 1 = ['('] := ⟨rfl, by simp⟩
    rw [if_pos hcond]
    simp only [List.drop_succ_cons, List.drop_zero]
    rw [matchImgPath_complete hp1 hp2]
  | cons c a' ih =>
    have hc1 : c ≠ ']' := by rintro rfl; exact ha1 (by simp)
    have hc2 : c ≠ '\n' := by rintro rfl; exact ha2 (by simp)
    have ih' := ih (fun hx => ha1 (by simp [hx])) (fun hx => ha2 (by simp [hx]))
    rw [List.cons_append, matchImgAlt_cons]
    rw [show (if c = ']' ∧ (a' ++ (']' :: '(' :: (p ++ ')' :: r))).take 1 = ['(']
        then matchImgPath ((a' ++ (']' :: '(' :: (p ++ ')' :: r))).drop 1) else none) = none
      from if_neg (fun hh => hc1 hh.1)]
    simp only [if_neg hc2, ih', Option.map_some']

theorem imageAux_copy (fs : Option FsModel) {pre : List Char} (m : List Char)
    (hpre : '!' ∉ pre) :
    ∀ f, (pre ++ m).length ≤ f →
      imageAux fs f (pre ++ m) =
        ((pre ++ (imageAux fs m.length m).1),
          (imageAux fs m.length m).2.1, (imageAux fs m.length m).2.2) := by
  induction pre with
  | nil =>
    intro f hf
    rw [List.nil_append, imageAux_fuelIrrel fs f m.length m (by simpa using hf) le_rfl]
    simp
  | cons c pre' ih =>
    intro f hf
    simp only [List.cons_append, List.length_cons] at hf ⊢
    cases f with
    | zero => omega
    | succ f' =>
      rw [imageAux_cons]
      have hc : ¬ (c = '!' ∧ (pre' ++ m).take 1 = ['[']) := by
        rintro ⟨rfl, _⟩; exact hpre (by simp)
      rw [if_neg hc]
      have ih' := ih (fun hx => hpre (by simp [hx])) f' (by omega)
      simp only [List.length_append] at ih'
      rw [ih']

theorem imageAux_match (fs : Option FsModel) {a p : List Char} (post : List Char)
    (ha1 : ']' ∉ a) (ha2 : '\n' ∉ a) (hp1 : ')' ∉ p) (hp2 : '\n' ∉ p) :
    ∀ f, ('!' :: '[' :: (a ++ (']' :: '(' :: (p ++ ')' :: post)))).length ≤ f →
      imageAux fs f ('!' :: '[' :: (a ++ (']' :: '(' :: (p ++ ')' :: post)))) =
        ((imageReplace fs a p).1 ++ (imageAux fs post.length post).1,
          (imageReplace fs a p).2.1 ++ (imageAux fs post.length post).2.1,
          (imageReplace fs a p).2.2 ++ (imageAux fs post.length post).2.2) := by
  intro f hf
  cases f with
  | zero => simp at hf
  | succ f' =>
    rw [imageAux_cons]
    have hc : ('!' : Char) = '!'
        ∧ ('[' :: (a ++ (']' :: '(' :: (p ++ ')' :: post)))).take 1 = ['['] := ⟨rfl, by simp⟩
    rw [if_pos hc]
    simp only [List.drop_succ_cons, List.drop_zero]
    rw [matchImgAlt_complete ha1 ha2 hp1 hp2]
    simp only
    rw [imageAux_fuelIrrel fs f' post.length post ?h1 le_rfl]
    case h1 =>
      simp only [List.length_cons, List.length_append] at hf
      omega

/-! ## The heading passes -/

theorem take_replicate_head {n : Nat} {c : Char} {rest : List Char}
    (hn : 1 ≤ n) (h : (c :: rest).take n = List.replicate n '#') : c = '#' := by
  cases n with
  | zero => omega
  | succ m =>
    rw [List.replicate_succ] at h
    simp only [List.take_succ_cons, List.cons.injEq] at h
    exact h.1

theorem headingAux_noHash {n : Nat} (hn : 1 ≤ n) {l : List Char} (hl : '#' ∉ l) :
    ∀ f (b : Bool), l.length ≤ f → headingAux n f b l = l := by
  induction l with
  | nil => intro f b _; exact headingAux_nil n f b
  | cons c rest ih =>
    intro f b hf
    cases f with
    | zero => simp at hf
    | succ f' =>
      rw [headingAux_cons]
      have hg : ¬ (b = true ∧ (c :: rest).take n = List.replicate n '#'
          ∧ headIsSpace ((c :: rest).drop n) = true) := by
        rintro ⟨_, ht, _⟩
        exact hl (by simp [take_replicate_head hn ht])
      rw [if_neg hg]
      rw [ih (fun hx => hl (by simp [hx])) f' (c = '\n') (by simp at hf; omega)]

theorem headingAux_false_noNl {n : Nat} {l : List Char} (hl : '\n' ∉ l) :
    ∀ f, l.length ≤ f → headingAux n f false l = l := by
  induction l with
  | nil => intro f _; exact headingAux_nil n f false
  | cons c rest ih =>
    intro f hf
    cases f with
    | zero => simp at hf
    | succ f' =>
      rw [headingAux_cons]
      have hg : ¬ ((false : Bool) = true ∧ (c :: rest).take n = List.replicate n '#'
          ∧ headIsSpace ((c :: rest).drop n) = true) := by
        rintro ⟨h, _, _⟩; cases h
      rw [if_neg hg]
      have hc : c ≠ '\n' := by rintro rfl; exact hl (by simp)
      rw [show (decide (c = '\n')) = false from decide_eq_false hc]
      rw [ih (fun hx => hl (by simp [hx])) f' (by simp at hf; omega)]

theorem headingAux_true_noMatch {n : Nat} {l : List Char} (hl : '\n' ∉ l)
    (hm : ¬ (l.take n = List.replicate n '#' ∧ headIsSpace (l.drop n) = true)) :
    ∀ f, l.length ≤ f → headingAux n f true l = l := by
  cases l with
  | nil => intro f _; exact headingAux_nil n f true
  | cons c rest =>
    intro f hf
    cases f with
    | zero => simp at hf
    | succ f' =>
      rw [headingAux_cons]
      rw [if_neg (by rintro ⟨_, h2, h3⟩; exact hm ⟨h2, h3⟩)]
      have hc : c ≠ '\n' := by rintro rfl; exact hl (by simp)
      rw [show (decide (c = '\n')) = false from decide_eq_false hc]
      rw [headingAux_false_noNl (fun hx => hl (by simp [hx])) f' (by simp at hf; omega)]

theorem headingAux_match {n : Nat} (hn : 1 ≤ n) {ws text : List Char}
    (hw : ws ≠ []) (hws : ∀ c ∈ ws, pyIsSpace c = true ∧ c ≠ '\n')
    (htext : '\n' ∉ text) (hhead : ∀ c, text.head? = some c → pyIsSpace c = false) :
    ∀ f, (List.replicate n '#' ++ (ws ++ text)).length ≤ f →
      headingAux n f true (List.replicate n '#' ++ (ws ++ text))
        = hOpen n ++ text ++ hClose n := by
  intro f hf
  obtain ⟨m, rfl⟩ : ∃ m, n = m + 1 := ⟨n - 1, by omega⟩
  have hcons : List.replicate (m + 1) '#' ++ (ws ++ text)
      = '#' :: (List.replicate m '#' ++ (ws ++ text)) := by
    rw [List.replicate_succ]; rfl
  rw [hcons] at hf ⊢
  cases f with
  | zero => simp at hf
  | succ f' =>
    rw [headingAux_cons]
    have htake : ('#' :: (List.replicate m '#' ++ (ws ++ text))).take (m + 1)
        = List.replicate (m + 1) '#' := by
      rw [← hcons]
      have h := List.take_left (List.replicate (m + 1) '#') (ws ++ text)
      rwa [List.length_replicate] at h
    have hdrop : ('#' :: (List.replicate m '#' ++ (ws ++ text))).drop (m + 1)
        = ws ++ text := by
      rw [← hcons]
      have h := List.drop_left (List.replicate (m + 1) '#') (ws ++ text)
      rwa [List.length_replicate] at h
    have hspace : headIsSpace (('#' :: (List.replicate m '#' ++ (ws ++ text))).drop (m + 1))
        = true := by
      rw [hdrop]
      cases ws with
      | nil => exact absurd rfl hw
      | cons w ws' => simpa [headIsSpace] using (hws w (by simp)).1
    rw [if_pos ⟨rfl, htake, hspace⟩]
    simp only [hdrop]
    have hdw : (ws ++ text).dropWhile pyIsSpace = text := by
      rw [dropWhile_append_all text (fun c hc => (hws c hc).1)]
      exact dropWhile_head_false hhead
    rw [hdw]
    have htk : text.takeWhile (fun x => x ≠ '\n') = text :=
      takeWhile_ne_of_not_mem htext
    have hdr : text.dropWhile (fun x => x ≠ '\n') = [] := by
      apply dropWhile_eq_nil_of
      intro c hc
      simp only [ne_eq, decide_eq_true_eq]
      rintro rfl; exact htext hc
    rw [htk, hdr, headingAux_nil]
    simp

/-- The full heading line used below: `n` hashes, whitespace, text. -/
theorem headingSub_match {n : Nat} (hn : 1 ≤ n) {ws text : List Char}
    (hw : ws ≠ []) (hws : ∀ c ∈ ws, pyIsSpace c = true ∧ c ≠ '\n')
    (htext : '\n' ∉ text) (hhead : ∀ c, text.head? = some c → pyIsSpace c = false) :
    headingSub n (List.replicate n '#' ++ (ws ++ text)) = hOpen n ++ text ++ hClose n :=
  headingAux_match hn hw hws htext hhead _ le_rfl

theorem headingSub_noHash {n : Nat} (hn : 1 ≤ n) {l : List Char} (hl : '#' ∉ l) :
    headingSub n l = l :=
  headingAux_noHash hn hl _ true le_rfl

theorem headingSub_noMatch {n : Nat} {l : List Char} (hl : '\n' ∉ l)
    (hm : ¬ (l.take n = List.replicate n '#' ∧ headIsSpace (l.drop n) = true)) :
    headingSub n l = l :=
  headingAux_true_noMatch hl hm _ le_rfl

/-! ## The delimiter passes, code-block pass, table, rule and paragraph passes -/

theorem subDelimAux_noop {d o cl : List Char} {dc : Char} {d' : List Char}
    (hd : d = dc :: d') {l : List Char} (hl : dc ∉ l) :
    ∀ f, l.length ≤ f → subDelimAux d o cl f l = l := by
  induction l with
  | nil => intro f _; exact subDelimAux_nil d o cl f
  | cons c rest ih =>
    intro f hf
    cases f with
    | zero => simp at hf
    | succ f' =>
      rw [subDelimAux_cons]
      have hc : c ≠ dc := by rintro rfl; exact hl (by simp)
      rw [listStartsWith_false_of_head hd rfl hc]
      simp only [Bool.false_eq_true, if_false]
      rw [ih (fun hx => hl (by simp [hx])) f' (by simp at hf; omega)]

theorem subDelim_noop {d o cl : List Char} {dc : Char} {d' : List Char}
    (hd : d = dc :: d') {l : List Char} (hl : dc ∉ l) :
    subDelim d o cl l = l :=
  subDelimAux_noop hd hl _ le_rfl

theorem codeAux_noop {l : List Char} (hl : '`' ∉ l) :
    ∀ f, l.length ≤ f → codeAux f l = l := by
  induction l with
  | nil => intro f _; exact codeAux_nil f
  | cons c rest ih =>
    intro f hf
    cases f with
    | zero => simp at hf
    | succ f' =>
      rw [codeAux_cons]
      have hc : c ≠ '`' := by rintro rfl; exact hl (by simp)
      rw [listStartsWith_false_of_head (show "```".toList = '`' :: ['`', '`'] from rfl) rfl hc]
      simp only [Bool.false_eq_true, if_false]
      rw [ih (fun hx => hl (by simp [hx])) f' (by simp at hf; omega)]

theorem codeStage_noop {l : List Char} (hl : '`' ∉ l) : codeStage l = l :=
  codeAux_noop hl _ le_rfl

theorem lazyUpToTicks_complete {b r : List Char} (hb : '`' ∉ b) :
    lazyUpToTicks (b ++ ('`' :: '`' :: '`' :: r)) = some (b, r) := by
  induction b with
  | nil =>
    rw [List.nil_append]
    rw [show lazyUpToTicks ('`' :: '`' :: '`' :: r)
        = if listStartsWith ("```".toList) ('`' :: '`' :: '`' :: r) then
            some ([], ('`' :: '`' :: r).drop 2)
          else (lazyUpToTicks ('`' :: '`' :: r)).map (fun x => ('`' :: x.1, x.2)) from rfl]
    rw [if_pos (by rfl)]
    rfl
  | cons c b' ih =>
    have hc : c ≠ '`' := by rintro rfl; exact hb (by simp)
    have ih' := ih (fun hx => hb (by simp [hx]))
    rw [List.cons_append]
    rw [show lazyUpToTicks (c :: (b' ++ ('`' :: '`' :: '`' :: r)))
        = if listStartsWith ("```".toList) (c :: (b' ++ ('`' :: '`' :: '`' :: r))) then
            some ([], (b' ++ ('`' :: '`' :: '`' :: r)).drop 2)
          else (lazyUpToTicks (b' ++ ('`' :: '`' :: '`' :: r))).map
            (fun x => (c :: x.1, x.2)) from rfl]
    rw [listStartsWith_false_of_head (show "```".toList = '`' :: ['`', '`'] from rfl) rfl hc]
    simp only [Bool.false_eq_true, if_false, ih', Option.map_some']

theorem codeAux_fence {lang body : List Char}
    (hlang : ∀ c ∈ lang, isWordChar c = true) (hbody : '`' ∉ body) :
    ∀ f, ('`' :: '`' :: '`' :: (lang ++ ('\n' :: (body ++ ['`', '`', '`'])))).length ≤ f →
      codeAux f ('`' :: '`' :: '`' :: (lang ++ ('\n' :: (body ++ ['`', '`', '`']))))
        = codeBlockHtml lang body := by
  intro f hf
  cases f with
  | zero => simp at hf
  | succ f' =>
    rw [codeAux_cons]
    rw [if_pos (show listStartsWith ("```".toList)
        ('`' :: '`' :: '`' :: (lang ++ ('\n' :: (body ++ ['`', '`', '`'])))) = true by
      simp [listStartsWith])]
    simp only [List.drop_succ_cons, List.drop_zero]
    have htw : (lang ++ ('\n' :: (body ++ ['`', '`', '`']))).takeWhile isWordChar = lang := by
      rw [takeWhile_append_all _ hlang]
      rw [show ('\n' :: (body ++ ['`', '`', '`'])).takeWhile isWordChar = [] from by
        simp [List.takeWhile_cons, isWordChar, Char.isAlphanum, Char.isAlpha,
          Char.isUpper, Char.isLower, Char.isDigit]]
      simp
    have hdw : (lang ++ ('\n' :: (body ++ ['`', '`', '`']))).dropWhile isWordChar
        = '\n' :: (body ++ ['`', '`', '`']) := by
      rw [dropWhile_append_all _ hlang]
      rw [List.dropWhile_cons]
      rw [show isWordChar '\n' = false from rfl]
      simp
    rw [htw, hdw]
    simp only [List.take_succ_cons, List.take_zero, List.drop_succ_cons, List.drop_zero,
      if_pos rfl]
    rw [show body ++ ['`', '`', '`'] = body ++ ('`' :: '`' :: '`' :: []) from rfl]
    rw [lazyUpToTicks_complete hbody]
    simp only
    rw [codeAux_nil]
    simp

theorem tableAux_none_noQual {lines : List (List Char)}
    (h : ∀ x ∈ lines, lineIsTable x = false) : tableAux none lines = lines := by
  induction lines with
  | nil => rfl
  | cons x ls ih =>
    rw [show tableAux none (x :: ls)
        = if lineIsTable x then tableAux (some [x]) ls else x :: tableAux none ls from rfl]
    rw [h x (by simp)]
    simp only [Bool.false_eq_true, if_false]
    rw [ih (fun y hy => h y (by simp [hy]))]

theorem tableStage_noop {l : List Char} (h : ∀ x ∈ splitLines l, lineIsTable x = false) :
    tableStage l = l := by
  unfold tableStage
  rw [tableAux_none_noQual h, intercalateNl_splitLines]

theorem lineIsTable_false_of_no_bar {x : List Char} (h : '|' ∉ x) :
    lineIsTable x = false := by
  simp [lineIsTable, h]

theorem hrLine_eq_of_mem_ne {line : List Char} {c : Char} (hc : c ∈ line) (hne : c ≠ '-') :
    hrLine line = line := by
  unfold hrLine
  rw [if_neg]
  rintro ⟨_, hall⟩
  exact hne (by simpa using List.all_eq_true.1 hall c hc)

theorem hrStage_noop {l : List Char} (h : ∀ x ∈ splitLines l, hrLine x = x) :
    hrStage l = l := by
  unfold hrStage
  rw [List.map_congr_left h, show (fun a : List Char => a) = id from rfl, List.map_id,
    intercalateNl_splitLines]

theorem paraStage_single {l : List Char} (hd : hasDoubleNl l = false)
    (hs : pyStrip l = l) (hlt : l.take 1 = ['<']) : paraStage l = l := by
  unfold paraStage
  rw [splitNlNl_eq_self hd]
  simp only [List.map_cons, List.map_nil]
  rw [show paraFmt l = l from ?_]
  · rfl
  · unfold paraFmt
    simp only [hs]
    rw [if_neg]
    rintro ⟨_, hne⟩
    exact hne hlt

theorem imageAux_noop (fs : Option FsModel) {l : List Char} (hl : '!' ∉ l) :
    ∀ f, l.length ≤ f → imageAux fs f l = (l, [], []) := by
  induction l with
  | nil => intro f _; exact imageAux_nil fs f
  | cons c rest ih =>
    intro f hf
    cases f with
    | zero => simp at hf
    | succ f' =>
      rw [imageAux_cons]
      have hc : ¬ (c = '!' ∧ rest.take 1 = ['[']) := by
        rintro ⟨rfl, _⟩; exact hl (by simp)
      rw [if_neg hc]
      simp only
      rw [ih (fun hx => hl (by simp [hx])) f' (by simp at hf; omega)]

theorem imageStage_noop (fs : Option FsModel) {l : List Char} (hl : '!' ∉ l) :
    imageStage fs l = (l, [], []) :=
  imageAux_noop fs hl _ le_rfl

/-! ## Heading-pipeline facts for a single heading line -/

theorem line_take_ne {n m : Nat} (hnm : n < m) {ws text : List Char} (hw : ws ≠ [])
    (hws : ∀ c ∈ ws, pyIsSpace c = true) :
    (List.replicate n '#' ++ (ws ++ text)).take m ≠ List.replicate m '#' := by
  intro heq
  obtain ⟨w, ws', rfl⟩ : ∃ w ws', ws = w :: ws' := by
    cases ws with
    | nil => exact absurd rfl hw
    | cons w ws' => exact ⟨w, ws', rfl⟩
  have hget := congrArg (fun l => l.get? n) heq
  simp only at hget
  rw [List.get?_take hnm] at hget
  rw [List.get?_append_right (by simp)] at hget
  simp only [List.length_replicate, Nat.sub_self] at hget
  have hw' : pyIsSpace w = true := (hws w (by simp))
  have : (List.replicate m '#').get? n = some '#' := by
    rw [List.get?_eq_get (by simpa using hnm)]
    simp [List.get_replicate]
  rw [this] at hget
  simp only [List.cons_append, List.get?] at hget
  have hww : w = '#' := by injection hget
  rw [hww] at hw'
  simp [pyIsSpace] at hw'

theorem line_drop_not_space {n m : Nat} (hmn : m < n) (ws text : List Char) :
    headIsSpace ((List.replicate n '#' ++ (ws ++ text)).drop m) = false := by
  have hrep : (List.replicate n '#' ++ (ws ++ text)).drop m
      = List.replicate (n - m) '#' ++ (ws ++ text) := by
    rw [List.drop_append_of_le_length (by simp; omega)]
    congr 1
    exact List.drop_replicate ..
  rw [hrep]
  obtain ⟨k, hk⟩ : ∃ k, n - m = k + 1 := ⟨n - m - 1, by omega⟩
  rw [hk, List.replicate_succ, List.cons_append]
  simp [headIsSpace, pyIsSpace]

theorem result_take_ne {m n : Nat} (hm : 1 ≤ m) (text : List Char) :
    (hOpen n ++ text ++ hClose n).take m ≠ List.replicate m '#' := by
  intro heq
  have hcons : hOpen n ++ text ++ hClose n
      = '<' :: (('h' :: Nat.digitChar n :: '>' :: []) ++ text ++ hClose n) := rfl
  rw [hcons] at heq
  have := take_replicate_head hm heq
  cases this

theorem noNl_line {n : Nat} {ws text : List Char}
    (hws : ∀ c ∈ ws, pyIsSpace c = true ∧ c ≠ '\n') (ht : '\n' ∉ text) :
    '\n' ∉ List.replicate n '#' ++ (ws ++ text) := by
  intro hmem
  rcases List.mem_append.1 hmem with h | h
  · have := List.eq_of_mem_replicate h
    cases this
  · rcases List.mem_append.1 h with h | h
    · exact (hws _ h).2 rfl
    · exact ht h

theorem noNl_result {n : Nat} {text : List Char} (hd : Nat.digitChar n ≠ '\n')
    (ht : '\n' ∉ text) : '\n' ∉ hOpen n ++ text ++ hClose n := by
  intro hmem
  rcases List.mem_append.1 hmem with h | h
  · rcases List.mem_append.1 h with h | h
    · simp only [hOpen, List.mem_cons, List.not_mem_nil, or_false] at h
      rcases h with h | h | h | h
      · exact absurd h (by decide)
      · exact absurd h (by decide)
      · exact hd h.symm
      · exact absurd h (by decide)
    · exact ht h
  · simp only [hClose, List.mem_cons, List.not_mem_nil, or_false] at h
    rcases h with h | h | h | h | h
    · exact absurd h (by decide)
    · exact absurd h (by decide)
    · exact absurd h (by decide)
    · exact hd h.symm
    · exact absurd h (by decide)

/-- C6: for every level `n` from 1 to 6, a line made of `n` hash marks,
whitespace, and a single-line text converts (through the six heading
passes, applied longest prefix first) to exactly the level-`n` heading
tag wrapping exactly the text; in particular a line beginning with a run
of `n` hashes is never tagged at a lower level, since the unique result
is the level-`n` tag. -/
theorem C6_heading_conversion (n : Nat) (ws text : List Char)
    (h1 : 1 ≤ n) (h6 : n ≤ 6) (hw : ws ≠ [])
    (hws : ∀ c ∈ ws, pyIsSpace c = true ∧ c ≠ '\n')
    (ht : '\n' ∉ text) (hh : ∀ c, text.head? = some c → pyIsSpace c = false) :
    headingPipeline (List.replicate n '#' ++ (ws ++ text))
      = hOpen n ++ text ++ hClose n := by
  have hnl : '\n' ∉ List.replicate n '#' ++ (ws ++ text) := noNl_line hws ht
  have hws1 : ∀ c ∈ ws, pyIsSpace c = true := fun c hc => (hws c hc).1
  have hmGT : ∀ m, n < m →
      headingSub m (List.replicate n '#' ++ (ws ++ text))
        = List.replicate n '#' ++ (ws ++ text) := by
    intro m hm
    exact headingSub_noMatch hnl (fun hcond => line_take_ne hm hw hws1 hcond.1)
  have hmLT : ∀ m, m < n →
      headingSub m (List.replicate n '#' ++ (ws ++ text))
        = List.replicate n '#' ++ (ws ++ text) := by
    intro m hm
    refine headingSub_noMatch hnl (fun hcond => ?_)
    have hds := line_drop_not_space hm ws text
    rw [hcond.2] at hds
    cases hds
  have hmatch : headingSub n (List.replicate n '#' ++ (ws ++ text))
      = hOpen n ++ text ++ hClose n := headingSub_match h1 hw hws ht hh
  have hdig : Nat.digitChar n ≠ '\n' := by interval_cases n <;> decide
  have hmRes : ∀ m, 1 ≤ m →
      headingSub m (hOpen n ++ text ++ hClose n) = hOpen n ++ text ++ hClose n := by
    intro m hm
    exact headingSub_noMatch (noNl_result hdig ht)
      (fun hcond => result_take_ne hm text hcond.1)
  interval_cases n
  · unfold headingPipeline
    rw [hmGT 6 (by omega), hmGT 5 (by omega), hmGT 4 (by omega), hmGT 3 (by omega),
      hmGT 2 (by omega), hmatch]
  · unfold headingPipeline
    rw [hmGT 6 (by omega), hmGT 5 (by omega), hmGT 4 (by omega), hmGT 3 (by omega),
      hmatch, hmRes 1 (by omega)]
  · unfold headingPipeline
    rw [hmGT 6 (by omega), hmGT 5 (by omega), hmGT 4 (by omega), hmatch,
      hmRes 2 (by omega), hmRes 1 (by omega)]
  · unfold headingPipeline
    rw [hmGT 6 (by omega), hmGT 5 (by omega), hmatch, hmRes 3 (by omega),
      hmRes 2 (by omega), hmRes 1 (by omega)]
  · unfold headingPipeline
    rw [hmGT 6 (by omega), hmatch, hmRes 4 (by omega), hmRes 3 (by omega),
      hmRes 2 (by omega), hmRes 1 (by omega)]
  · unfold headingPipeline
    rw [hmatch, hmRes 5 (by omega), hmRes 4 (by omega), hmRes 3 (by omega),
      hmRes 2 (by omega), hmRes 1 (by omega)]

/-- Witness for C6 at `n = 3`, `ws = " "`, `text = "Title"`. -/
theorem C6_heading_conversion_witness :
    ((1 ≤ 3 ∧ 3 ≤ 6 ∧ ([' '] : List Char) ≠ []
        ∧ (∀ c ∈ [' '], pyIsSpace c = true ∧ c ≠ '\n')
        ∧ '\n' ∉ ("Title".toList))
      ∧ (∀ c, ("Title".toList).head? = some c → pyIsSpace c = false))
    ∧ headingPipeline (List.replicate 3 '#' ++ ([' '] ++ "Title".toList))
        = hOpen 3 ++ "Title".toList ++ hClose 3 := by
  refine ⟨⟨⟨by decide, by decide, by decide, by decide, by decide⟩, ?_⟩, ?_⟩
  · intro c hc
    rw [show ("Title".toList).head? = some 'T' from rfl] at hc
    cases hc
    decide
  · refine C6_heading_conversion 3 [' '] ("Title".toList) (by decide) (by decide)
      (by decide) (by decide) (by decide) ?_
    intro c hc
    rw [show ("Title".toList).head? = some 'T' from rfl] at hc
    cases hc
    decide

/-- C2: the image stage transforms each image reference `![alt](path)`:
the matched reference is replaced by `image_replace`'s output and the
scan continues after it, and `image_replace` sends an `http`/`https`
path to external-image markup, an existing local path (resolved against
the markdown file's directory when relative) to an attachment reference
using the file's base name while recording it in the image list, and a
missing local path to an inline "Image not found" note plus a warning. -/
theorem C2_image_reference_conversion (m : FsModel) (pre alt path post : List Char)
    (hpre : '!' ∉ pre) (ha1 : ']' ∉ alt) (ha2 : '\n' ∉ alt)
    (hp1 : ')' ∉ path) (hp2 : '\n' ∉ path) :
    imageStage (some m)
        (pre ++ "![".toList ++ alt ++ "](".toList ++ path ++ ")".toList ++ post)
      = (pre ++ (imageReplace (some m) alt path).1 ++ (imageStage (some m) post).1,
          (imageReplace (some m) alt path).2.1 ++ (imageStage (some m) post).2.1,
          (imageReplace (some m) alt path).2.2 ++ (imageStage (some m) post).2.2)
    ∧ (listStartsWith ("http://".toList) path ∨ listStartsWith ("https://".toList) path →
        imageReplace (some m) alt path
          = ("<ac:image><ri:url ri:value=\"".toList ++ path ++ "\" /></ac:image>".toList,
              [], []))
    ∧ (¬ (listStartsWith ("http://".toList) path ∨ listStartsWith ("https://".toList) path) →
        m.pathExists (if m.isAbsolute path then path else m.resolveInBase path) = true →
        imageReplace (some m) alt path
          = ("<ac:image><ri:attachment ri:filename=\"".toList
              ++ m.fileName (if m.isAbsolute path then path else m.resolveInBase path)
              ++ "\" /></ac:image>".toList,
              [if m.isAbsolute path then path else m.resolveInBase path], []))
    ∧ (¬ (listStartsWith ("http://".toList) path ∨ listStartsWith ("https://".toList) path) →
        m.pathExists (if m.isAbsolute path then path else m.resolveInBase path) = false →
        imageReplace (some m) alt path
          = ("<p><em>Image not found: ".toList ++ path ++ "</em></p>".toList,
              [], [path])) := by
  refine ⟨?_, ?_, ?_, ?_⟩
  · have hshape : pre ++ "![".toList ++ alt ++ "](".toList ++ path ++ ")".toList ++ post
        = pre ++ ('!' :: '[' :: (alt ++ (']' :: '(' :: (path ++ ')' :: post)))) := by
      simp [List.append_assoc]
    rw [hshape]
    show imageAux (some m) _ _ = _
    rw [imageAux_copy (some m) _ hpre _ le_rfl]
    rw [show ('!' :: '[' :: (alt ++ (']' :: '(' :: (path ++ ')' :: post)))).length
        = ('!' :: '[' :: (alt ++ (']' :: '(' :: (path ++ ')' :: post)))).length from rfl]
    rw [imageAux_match (some m) post ha1 ha2 hp1 hp2 _ le_rfl]
    simp [imageStage, List.append_assoc]
  · intro hurl
    unfold imageReplace
    rw [if_pos hurl]
  · intro hurl hex
    unfold imageReplace
    rw [if_neg hurl]
    simp only [hex, if_true]
  · intro hurl hex
    unfold imageReplace
    rw [if_neg hurl]
    simp only [hex, Bool.false_eq_true, if_false]

/-- Witness for C2 with an existing relative local path. -/
theorem C2_image_reference_conversion_witness :
    ('!' ∉ ("a ".toList) ∧ ']' ∉ ("pic".toList) ∧ '\n' ∉ ("pic".toList)
      ∧ ')' ∉ ("img.png".toList) ∧ '\n' ∉ ("img.png".toList))
    ∧ imageStage (some (FsModel.mk (fun _ => false) (fun p => "/docs/".toList ++ p)
          (fun _ => true) (fun _ => "img.png".toList)))
        ("a ".toList ++ "![".toList ++ "pic".toList ++ "](".toList
          ++ "img.png".toList ++ ")".toList ++ [])
      = ("a ".toList
          ++ ("<ac:image><ri:attachment ri:filename=\"".toList ++ "img.png".toList
                ++ "\" /></ac:image>".toList) ++ [],
          ["/docs/".toList ++ "img.png".toList] ++ [], [] ++ []) := by
  refine ⟨⟨by decide, by decide, by decide, by decide, by decide⟩, ?_⟩
  have h := (C2_image_reference_conversion
    (FsModel.mk (fun _ => false) (fun p => "/docs/".toList ++ p)
      (fun _ => true) (fun _ => "img.png".toList))
    ("a ".toList) ("pic".toList) ("img.png".toList) []
    (by decide) (by decide) (by decide) (by decide) (by decide))
  rw [h.1]
  rw [h.2.2.1 (by decide) rfl]
  rfl

/-! ## The full pipeline on a fenced code block -/

theorem mem_of_getLast?_eq {l : List Char} {a : Char} (h : l.getLast? = some a) : a ∈ l := by
  have hx : a ∈ l.getLast? := Option.mem_def.2 h
  obtain ⟨hne, rfl⟩ := List.mem_getLast?_eq_getLast hx
  exact List.getLast_mem hne

/-- The literal prefix of the code macro before the language value. -/
def cbA1 : List Char :=
  "<ac:structured-macro ac:name=\"code\"><ac:parameter ac:name=\"language\">".toList

/-- The literal between the language value and the CDATA body. -/
def cbA2 : List Char := "</ac:parameter><ac:plain-text-body><![CDATA[".toList

/-- The literal after the CDATA body. -/
def cbA3 : List Char := "]]></ac:plain-text-body></ac:structured-macro>".toList

theorem codeBlockHtml_decomp (lang body : List Char) :
    codeBlockHtml lang body
      = (cbA1 ++ ((if lang.isEmpty then "none".toList else lang) ++ cbA2))
        ++ (body ++ cbA3) := by
  simp [codeBlockHtml, cbA1, cbA2, cbA3, List.append_assoc]

theorem safe_not_mem {body : List Char}
    (hbody : ∀ c ∈ body, c.isAlphanum = true ∨ c = ' ' ∨ c = '\n')
    {x : Char} (hx1 : x.isAlphanum = false) (hx2 : x ≠ ' ') (hx3 : x ≠ '\n') :
    x ∉ body := by
  intro hm
  rcases hbody x hm with h | h | h <;> simp_all

theorem alnum_not_mem {lang : List Char} (hlang : ∀ c ∈ lang, c.isAlphanum = true)
    {x : Char} (hx : x.isAlphanum = false) : x ∉ lang := by
  intro hm
  rw [hlang x hm] at hx
  cases hx

theorem langValue_alnum {lang : List Char} (hlang : ∀ c ∈ lang, c.isAlphanum = true) :
    ∀ c ∈ (if lang.isEmpty then "none".toList else lang), c.isAlphanum = true := by
  intro c hc
  by_cases he : lang.isEmpty
  · rw [if_pos he] at hc
    fin_cases hc <;> decide
  · rw [if_neg he] at hc
    exact hlang c hc

theorem macro_not_mem {lang body : List Char}
    (hlang : ∀ c ∈ lang, c.isAlphanum = true)
    (hbody : ∀ c ∈ body, c.isAlphanum = true ∨ c = ' ' ∨ c = '\n')
    {x : Char} (hx1 : x.isAlphanum = false) (hx2 : x ≠ ' ') (hx3 : x ≠ '\n')
    (hlit : x ∉ cbA1 ∧ x ∉ cbA2 ∧ x ∉ cbA3) :
    x ∉ codeBlockHtml lang body := by
  rw [codeBlockHtml_decomp]
  intro hm
  simp only [List.mem_append] at hm
  rcases hm with (h | h | h) | h | h
  · exact hlit.1 h
  · exact alnum_not_mem (langValue_alnum hlang) hx1 h
  · exact hlit.2.1 h
  · exact safe_not_mem hbody hx1 hx2 hx3 h
  · exact hlit.2.2 h

theorem fence_not_mem {lang body : List Char}
    (hlang : ∀ c ∈ lang, c.isAlphanum = true)
    (hbody : ∀ c ∈ body, c.isAlphanum = true ∨ c = ' ' ∨ c = '\n')
    {x : Char} (hx1 : x.isAlphanum = false) (hx2 : x ≠ ' ') (hx3 : x ≠ '\n')
    (hx4 : x ≠ '`') :
    x ∉ '`' :: '`' :: '`' :: (lang ++ ('\n' :: (body ++ ['`', '`', '`']))) := by
  intro hm
  simp only [List.mem_cons, List.mem_append, List.mem_singleton, List.not_mem_nil,
    or_false] at hm
  rcases hm with h | h | h | h | h | h | h | h | h
  · exact hx4 h
  · exact hx4 h
  · exact hx4 h
  · exact alnum_not_mem hlang hx1 h
  · exact hx3 h
  · exact safe_not_mem hbody hx1 hx2 hx3 h
  · exact hx4 h
  · exact hx4 h
  · exact hx4 h

theorem hrLine_eq_of_no_dash {x : List Char} (h : '-' ∉ x) : hrLine x = x := by
  unfold hrLine
  rw [if_neg]
  rintro ⟨hlen, hall⟩
  cases x with
  | nil => simp at hlen
  | cons c r =>
    have : c = '-' := by simpa using List.all_eq_true.1 hall c (by simp)
    exact h (by simp [this])

theorem hr_noop_sandwich {A b C : List Char} (hA : '<' ∈ A) (hC : '<' ∈ C)
    (hbody : '-' ∉ b) (hAnl : '\n' ∉ A) (hCnl : '\n' ∉ C) :
    ∀ x ∈ splitLines (A ++ (b ++ C)), hrLine x = x := by
  obtain ⟨t, h1, h2⟩ := splitOnChar_append_left (s := '\n') (b ++ C) hAnl
  obtain ⟨I, L, hI, hIC⟩ := splitOnChar_append_right (s := '\n') b hCnl
  intro x hx
  rw [show splitLines (A ++ (b ++ C)) = splitOnChar '\n' (A ++ (b ++ C)) from rfl,
    h2] at hx
  rcases List.mem_cons.1 hx with rfl | hx
  · exact hrLine_eq_of_mem_ne (List.mem_append_left _ hA) (by decide)
  · -- x is in the tail t of splitLines (b ++ C) = I ++ [L ++ C]
    have hbc : splitOnChar '\n' (b ++ C)
        = (splitOnChar '\n' (b ++ C)).headD [] :: t := h1
    rw [hIC] at hbc
    cases I with
    | nil =>
      simp only [List.nil_append, List.headD_cons] at hbc
      have ht : t = [] := by
        injection hbc with _ h'
        exact h'.symm
      rw [ht] at hx
      cases hx
    | cons h0 I' =>
      simp only [List.cons_append, List.headD_cons] at hbc
      have ht : t = I' ++ [L ++ C] := by
        injection hbc with _ h'
        exact h'.symm
      rw [ht] at hx
      rcases List.mem_append.1 hx with hx | hx
      · -- a middle line: all its characters are in b
        have hsubset : ∀ c ∈ x, c ∈ b := by
          intro c hc
          refine mem_splitOnChar_sub (s := '\n') (l := b) ?_ hc
          rw [hI]
          exact List.mem_cons_of_mem _ (List.mem_append_left _ hx)
        apply hrLine_eq_of_no_dash
        intro hd
        exact hbody (hsubset '-' hd)
      · rcases List.mem_singleton.1 hx with rfl
        exact hrLine_eq_of_mem_ne (List.mem_append_right _ hC) (by decide)

/-- C3 (amended): the code-fence stage turns `" ```lang\n b``` "` into a
code macro whose language parameter is the tag when present and `"none"`
when the tag is empty; but because the fence conversion runs *after* the
heading, bold and italic passes, the fence b reaches the macro
verbatim only when those passes leave it unchanged — here guaranteed by
restricting the b to alphanumeric characters, spaces and single
newlines.  (The counterexample below shows a fence b containing a
heading line being rewritten before the macro is built.) -/
theorem C3_code_fence_amended (fs : Option FsModel) (lang body : List Char)
    (hlang : ∀ c ∈ lang, c.isAlphanum = true)
    (hbody : ∀ c ∈ body, c.isAlphanum = true ∨ c = ' ' ∨ c = '\n')
    (hdnl : hasDoubleNl body = false) :
    (markdown_to_confluence_storage fs
        ("```".toList ++ lang ++ ('\n' :: (body ++ "```".toList)))).1
      = codeBlockHtml lang body
    ∧ codeBlockHtml lang body
      = cbA1 ++ ((if lang.isEmpty then "none".toList else lang) ++ (cbA2 ++ (body ++ cbA3))) := by
  have hshape : "```".toList ++ lang ++ ('\n' :: (body ++ "```".toList))
      = '`' :: '`' :: '`' :: (lang ++ ('\n' :: (body ++ ['`', '`', '`']))) := by
    simp [List.append_assoc]
  constructor
  · rw [hshape]
    have hbang : '!' ∉ '`' :: '`' :: '`' :: (lang ++ ('\n' :: (body ++ ['`', '`', '`']))) :=
      fence_not_mem hlang hbody (by decide) (by decide) (by decide) (by decide)
    have hhash : '#' ∉ '`' :: '`' :: '`' :: (lang ++ ('\n' :: (body ++ ['`', '`', '`']))) :=
      fence_not_mem hlang hbody (by decide) (by decide) (by decide) (by decide)
    have hstar : '*' ∉ '`' :: '`' :: '`' :: (lang ++ ('\n' :: (body ++ ['`', '`', '`']))) :=
      fence_not_mem hlang hbody (by decide) (by decide) (by decide) (by decide)
    have hund : '_' ∉ '`' :: '`' :: '`' :: (lang ++ ('\n' :: (body ++ ['`', '`', '`']))) :=
      fence_not_mem hlang hbody (by decide) (by decide) (by decide) (by decide)
    have hAnl : '\n' ∉ cbA1 ++ ((if lang.isEmpty then "none".toList else lang) ++ cbA2) := by
      intro hm
      simp only [List.mem_append] at hm
      rcases hm with h | h | h
      · exact absurd h (by decide)
      · exact alnum_not_mem (langValue_alnum hlang) (by decide) h
      · exact absurd h (by decide)
    have htickM : '`' ∉ codeBlockHtml lang body :=
      macro_not_mem hlang hbody (by decide) (by decide) (by decide)
        ⟨by decide, by decide, by decide⟩
    have hbarM : '|' ∉ codeBlockHtml lang body :=
      macro_not_mem hlang hbody (by decide) (by decide) (by decide)
        ⟨by decide, by decide, by decide⟩
    unfold markdown_to_confluence_storage
    simp only [imageStage_noop fs hbang]
    have hhp : headingPipeline ('`' :: '`' :: '`' :: (lang ++ ('\n' :: (body ++ ['`', '`', '`']))))
        = '`' :: '`' :: '`' :: (lang ++ ('\n' :: (body ++ ['`', '`', '`']))) := by
      unfold headingPipeline
      rw [headingSub_noHash (by omega) hhash, headingSub_noHash (by omega) hhash,
        headingSub_noHash (by omega) hhash, headingSub_noHash (by omega) hhash,
        headingSub_noHash (by omega) hhash, headingSub_noHash (by omega) hhash]
    rw [hhp]
    unfold boldStarStage
    rw [subDelim_noop (show "**".toList = '*' :: ['*'] from rfl) hstar]
    unfold boldUnderStage
    rw [subDelim_noop (show "__".toList = '_' :: ['_'] from rfl) hund]
    unfold italicStarStage
    rw [subDelim_noop (show "*".toList = '*' :: [] from rfl) hstar]
    unfold italicUnderStage
    rw [subDelim_noop (show "_".toList = '_' :: [] from rfl) hund]
    have hcode : codeStage ('`' :: '`' :: '`' :: (lang ++ ('\n' :: (body ++ ['`', '`', '`']))))
        = codeBlockHtml lang body := by
      unfold codeStage
      exact codeAux_fence (fun c hc => by simp [isWordChar, hlang c hc])
        (safe_not_mem hbody (by decide) (by decide) (by decide)) _ le_rfl
    rw [hcode]
    unfold inlineCodeStage
    rw [subDelim_noop (show "`".toList = '`' :: [] from rfl) htickM]
    rw [tableStage_noop (fun x hx => lineIsTable_false_of_no_bar
      (fun hb => hbarM (mem_splitOnChar_sub hx hb)))]
    have hhr : hrStage (codeBlockHtml lang body) = codeBlockHtml lang body := by
      apply hrStage_noop
      have hsand := hr_noop_sandwich
        (A := cbA1 ++ ((if lang.isEmpty then "none".toList else lang) ++ cbA2))
        (b := body) (C := cbA3)
        (List.mem_append_left _ (by decide)) (by decide)
        (safe_not_mem hbody (by decide) (by decide) (by decide)) hAnl (by decide)
      rw [← codeBlockHtml_decomp] at hsand
      exact hsand
    rw [hhr]
    apply paraStage_single
    · have hin : hasDoubleNl (body ++ cbA3) = false := by
        apply hasDoubleNl_append hdnl (hasDoubleNl_of_no_nl (by decide))
        intro _ hc
        have hm3 : '\n' ∈ cbA3 := List.mem_of_mem_head? (show '\n' ∈ cbA3.head? by simp [hc])
        exact absurd hm3 (by decide)
      have hout : hasDoubleNl
          ((cbA1 ++ ((if lang.isEmpty then "none".toList else lang) ++ cbA2))
            ++ (body ++ cbA3)) = false := by
        apply hasDoubleNl_append (hasDoubleNl_of_no_nl hAnl) hin
        intro hlast _
        exact hAnl (mem_of_getLast?_eq hlast)
      rw [← codeBlockHtml_decomp] at hout
      exact hout
    · apply pyStrip_eq_self
      · intro c hc
        rw [show (codeBlockHtml lang body).head? = some '<' from by
          rw [codeBlockHtml_decomp]; rfl] at hc
        cases hc
        decide
      · have hbc3 : body ++ cbA3 ≠ [] := by
          intro h
          have hlen := congrArg List.length h
          simp only [List.length_append, List.length_nil] at hlen
          have h3 : cbA3.length = 0 := by omega
          exact absurd h3 (by decide)
        have hlastM : (codeBlockHtml lang body).getLast? = some '>' := by
          rw [codeBlockHtml_decomp]
          rw [List.getLast?_append_of_ne_nil _ hbc3,
            List.getLast?_append_of_ne_nil _ (show cbA3 ≠ [] by decide)]
          decide
        intro c hc
        rw [hlastM] at hc
        cases hc
        decide
    · rw [codeBlockHtml_decomp]
      rfl
  · rw [codeBlockHtml_decomp]
    simp [List.append_assoc]

set_option maxRecDepth 10000 in
/-- Counterexample to C3 as stated: for the input `"```\n# x\n```"` the
fence body `"# x\n"` does not appear verbatim in the produced macro —
the heading pass has already rewritten it to `"<h1>x</h1>\n"` by the
time the fence is converted. -/
theorem C3_code_fence_counterexample :
    (markdown_to_confluence_storage none ("```\n# x\n```".toList)).1
      = codeBlockHtml [] ("<h1>x</h1>\n".toList)
    ∧ (markdown_to_confluence_storage none ("```\n# x\n```".toList)).1
      ≠ codeBlockHtml [] ("# x\n".toList) := by
  constructor
  · decide
  · decide

/-- Witness for the amended C3 at `lang = "py"`, `body = "print 1\n"`. -/
theorem C3_code_fence_amended_witness :
    ((∀ c ∈ ("py".toList), c.isAlphanum = true)
      ∧ (∀ c ∈ ("print 1\n".toList), c.isAlphanum = true ∨ c = ' ' ∨ c = '\n')
      ∧ hasDoubleNl ("print 1\n".toList) = false)
    ∧ (markdown_to_confluence_storage none
        ("```".toList ++ "py".toList ++ ('\n' :: ("print 1\n".toList ++ "```".toList)))).1
      = codeBlockHtml ("py".toList) ("print 1\n".toList) :=
  ⟨⟨by decide, by decide, by decide⟩,
    (C3_code_fence_amended none ("py".toList) ("print 1\n".toList)
      (by decide) (by decide) (by decide)).1⟩

/-! ## Table conversion -/

/-- A markdown table row `|c1|c2|...|` built from its cells. -/
def mkRow (cells : List (List Char)) : List Char :=
  '|' :: concatAll (cells.map (fun c => c ++ ['|']))

theorem splitOnChar_concat_cells {cells : List (List Char)}
    (h : ∀ c ∈ cells, '|' ∉ c) :
    splitOnChar '|' (concatAll (cells.map (fun c => c ++ ['|']))) = cells ++ [[]] := by
  induction cells with
  | nil => simp [concatAll, splitOnChar]
  | cons c cs ih =>
    have hc : '|' ∉ c := (h c (by simp))
    have ih' := ih (fun x hx => h x (by simp [hx]))
    have hconcat : concatAll ((c :: cs).map (fun x => x ++ ['|']))
        = c ++ ('|' :: concatAll (cs.map (fun x => x ++ ['|']))) := by
      simp [concatAll, List.append_assoc]
    rw [hconcat]
    obtain ⟨t, h1, h2⟩ := splitOnChar_append_left (s := '|')
      ('|' :: concatAll (cs.map (fun x => x ++ ['|']))) hc
    rw [h2]
    have hsplit : splitOnChar '|' ('|' :: concatAll (cs.map (fun x => x ++ ['|'])))
        = [] :: splitOnChar '|' (concatAll (cs.map (fun x => x ++ ['|']))) := by
      simp [splitOnChar]
    rw [hsplit] at h1 ⊢
    simp only [List.headD_cons, List.append_nil]
    have ht : t = splitOnChar '|' (concatAll (cs.map (fun x => x ++ ['|']))) := by
      injection h1 with _ h'
      exact h'.symm
    rw [ht, ih']
    simp

theorem rowCells_mkRow {cells : List (List Char)}
    (h : ∀ c ∈ cells, '|' ∉ c ∧ pyStrip c = c) :
    rowCells (mkRow cells) = cells := by
  unfold rowCells mkRow
  have hsplit : splitOnChar '|' ('|' :: concatAll (cells.map (fun c => c ++ ['|'])))
      = [] :: (cells ++ [[]]) := by
    rw [show splitOnChar '|' ('|' :: concatAll (cells.map (fun c => c ++ ['|'])))
        = [] :: splitOnChar '|' (concatAll (cells.map (fun c => c ++ ['|']))) from by
      simp [splitOnChar]]
    rw [splitOnChar_concat_cells (fun c hc => (h c hc).1)]
  rw [hsplit]
  simp only [List.drop_succ_cons, List.drop_zero, List.dropLast_concat]
  rw [List.map_congr_left (fun c hc => (h c hc).2)]
  exact List.map_id _

theorem concat_cells_getLast (cells : List (List Char)) (hne : cells ≠ []) :
    (concatAll (cells.map (fun c => c ++ ['|']))).getLast? = some '|' := by
  induction cells with
  | nil => exact absurd rfl hne
  | cons c cs ih =>
    cases cs with
    | nil =>
      simp only [List.map_cons, List.map_nil, concatAll, List.foldr_cons, List.foldr_nil,
        List.append_nil]
      rw [List.getLast?_append_of_ne_nil _ (show ['|'] ≠ [] by decide)]
      rfl
    | cons c2 cs2 =>
      have ih' := ih (by simp)
      have hconcat : concatAll ((c :: c2 :: cs2).map (fun x => x ++ ['|']))
          = (c ++ ['|']) ++ concatAll ((c2 :: cs2).map (fun x => x ++ ['|'])) := by
        simp [concatAll]
      rw [hconcat]
      rw [List.getLast?_append_of_ne_nil _ (fun hnil => by rw [hnil] at ih'; cases ih')]
      exact ih'

theorem mkRow_getLast (cells : List (List Char)) : (mkRow cells).getLast? = some '|' := by
  unfold mkRow
  cases cells with
  | nil => rfl
  | cons c cs =>
    have h := concat_cells_getLast (c :: cs) (by simp)
    rw [show ('|' :: concatAll ((c :: cs).map (fun x => x ++ ['|'])))
        = ['|'] ++ concatAll ((c :: cs).map (fun x => x ++ ['|'])) from rfl]
    rw [List.getLast?_append_of_ne_nil _ (fun hnil => by rw [hnil] at h; cases h)]
    exact h

theorem lineIsTable_mkRow {cells : List (List Char)}
    (h : ∀ c ∈ cells, '|' ∉ c ∧ pyStrip c = c) :
    lineIsTable (mkRow cells) = true := by
  have hstrip : pyStrip (mkRow cells) = mkRow cells := by
    apply pyStrip_eq_self
    · intro c hc
      rw [show (mkRow cells).head? = some '|' from rfl] at hc
      cases hc
      decide
    · intro c hc
      rw [mkRow_getLast] at hc
      cases hc
      decide
  unfold lineIsTable
  rw [hstrip]
  rw [show mkRow cells = '|' :: concatAll (cells.map (fun c => c ++ ['|'])) from rfl]
  simp [listStartsWith]

theorem mem_concat_cells {cells : List (List Char)} {x : Char}
    (hx : x ∈ concatAll (cells.map (fun c => c ++ ['|']))) :
    x = '|' ∨ ∃ c ∈ cells, x ∈ c := by
  induction cells with
  | nil => simp [concatAll] at hx
  | cons c cs ih =>
    rw [show concatAll ((c :: cs).map (fun y => y ++ ['|']))
        = (c ++ ['|']) ++ concatAll (cs.map (fun y => y ++ ['|'])) from by
      simp [concatAll]] at hx
    rcases List.mem_append.1 hx with hx | hx
    · rcases List.mem_append.1 hx with hx | hx
      · exact Or.inr ⟨c, by simp, hx⟩
      · exact Or.inl (List.mem_singleton.1 hx)
    · rcases ih hx with h | ⟨c2, hc2, hxc⟩
      · exact Or.inl h
      · exact Or.inr ⟨c2, by simp [hc2], hxc⟩

theorem mem_mkRow {cells : List (List Char)} {x : Char} (hx : x ∈ mkRow cells) :
    x = '|' ∨ ∃ c ∈ cells, x ∈ c := by
  unfold mkRow at hx
  rcases List.mem_cons.1 hx with rfl | hx
  · exact Or.inl rfl
  · exact mem_concat_cells hx

theorem splitLines_sep (a b : List Char) (ha : '\n' ∉ a) :
    splitLines (a ++ '\n' :: b) = a :: splitLines b := by
  obtain ⟨t, h1, h2⟩ := splitOnChar_append_left (s := '\n') ('\n' :: b) ha
  show splitOnChar '\n' (a ++ '\n' :: b) = a :: splitOnChar '\n' b
  rw [h2]
  have hsplit : splitOnChar '\n' ('\n' :: b) = [] :: splitOnChar '\n' b := by
    simp [splitOnChar]
  rw [hsplit] at h1
  simp only [List.headD_cons] at h1 ⊢
  have ht : t = splitOnChar '\n' b := by
    injection h1 with _ h'
    exact h'.symm
  rw [hsplit, List.headD_cons, ht, List.append_nil]

theorem splitLines_single {a : List Char} (ha : '\n' ∉ a) : splitLines a = [a] :=
  splitOnChar_eq_self ha

/-- C7: a contiguous 3-line block of `|`-led lines (header, separator,
one data row) is grouped by the table stage and converted by
`convert_table` into a table with exactly one header row of `<th>` cells
and one data row of `<td>` cells — the cells being exactly the
pipe-delimited cells of the corresponding source line with the outer
empty cells trimmed (`rowCells`) — while a single `|`-led line forms a
one-line block that `convert_table` leaves unconverted. -/
theorem C7_table_conversion (hs ds : List (List Char)) (sep l : List Char)
    (hhs : ∀ c ∈ hs, '|' ∉ c ∧ pyStrip c = c)
    (hds : ∀ c ∈ ds, '|' ∉ c ∧ pyStrip c = c)
    (hhsn : ∀ c ∈ hs, '\n' ∉ c) (hdsn : ∀ c ∈ ds, '\n' ∉ c)
    (hsepn : '\n' ∉ sep) (hsept : lineIsTable sep = true)
    (hl : lineIsTable l = true) (hnl : '\n' ∉ l) :
    tableStage (mkRow hs ++ '\n' :: (sep ++ '\n' :: mkRow ds))
      = "<table><tbody>".toList
        ++ ("<tr>".toList ++ (concatAll (hs.map thCell) ++ ("</tr>".toList
        ++ ("<tr>".toList ++ (concatAll (ds.map tdCell) ++ ("</tr>".toList
        ++ "</tbody></table>".toList))))))
    ∧ rowCells (mkRow hs) = hs
    ∧ rowCells (mkRow ds) = ds
    ∧ tableStage l = l := by
  have hr1 : '\n' ∉ mkRow hs := by
    intro hm
    rcases mem_mkRow hm with h | ⟨c, hc, hxc⟩
    · cases h
    · exact hhsn c hc hxc
  have hr2 : '\n' ∉ mkRow ds := by
    intro hm
    rcases mem_mkRow hm with h | ⟨c, hc, hxc⟩
    · cases h
    · exact hdsn c hc hxc
  refine ⟨?_, rowCells_mkRow hhs, rowCells_mkRow hds, ?_⟩
  · have hlines : splitLines (mkRow hs ++ '\n' :: (sep ++ '\n' :: mkRow ds))
        = [mkRow hs, sep, mkRow ds] := by
      rw [splitLines_sep _ _ hr1, splitLines_sep _ _ hsepn, splitLines_single hr2]
    unfold tableStage
    rw [hlines]
    have haux : tableAux none [mkRow hs, sep, mkRow ds]
        = [convert_table [mkRow hs, sep, mkRow ds]] := by
      simp [tableAux, lineIsTable_mkRow hhs, lineIsTable_mkRow hds, hsept]
    rw [haux]
    rw [show intercalateNl [convert_table [mkRow hs, sep, mkRow ds]]
        = convert_table [mkRow hs, sep, mkRow ds] from rfl]
    unfold convert_table
    rw [if_neg (by simp)]
    simp only [List.headD_cons, List.drop_succ_cons, List.drop_zero, List.map_cons,
      List.map_nil]
    rw [rowCells_mkRow hhs, rowCells_mkRow hds]
    simp [concatAll, List.append_assoc]
  · unfold tableStage
    rw [splitLines_single hnl]
    rw [show tableAux none [l] = [convert_table [l]] from by simp [tableAux, hl]]
    rw [show convert_table [l] = intercalateNl [l] from by
      unfold convert_table
      rw [if_pos (by simp)]]
    rfl

/-- Witness for C7 with header cells `a`, `b`, separator `|-|-|`, data
cells `c`, `d`, and single line `|x|`. -/
theorem C7_table_conversion_witness :
    ((∀ c ∈ [("a".toList), ("b".toList)], '|' ∉ c ∧ pyStrip c = c)
      ∧ (∀ c ∈ [("c".toList), ("d".toList)], '|' ∉ c ∧ pyStrip c = c)
      ∧ (∀ c ∈ [("a".toList), ("b".toList)], '\n' ∉ c)
      ∧ (∀ c ∈ [("c".toList), ("d".toList)], '\n' ∉ c)
      ∧ '\n' ∉ ("|-|-|".toList) ∧ lineIsTable ("|-|-|".toList) = true
      ∧ lineIsTable ("|x|".toList) = true ∧ '\n' ∉ ("|x|".toList))
    ∧ tableStage (mkRow [("a".toList), ("b".toList)]
          ++ '\n' :: ("|-|-|".toList ++ '\n' :: mkRow [("c".toList), ("d".toList)]))
        = "<table><tbody>".toList
          ++ ("<tr>".toList ++ (concatAll ([("a".toList), ("b".toList)].map thCell)
            ++ ("</tr>".toList ++ ("<tr>".toList
            ++ (concatAll ([("c".toList), ("d".toList)].map tdCell)
            ++ ("</tr>".toList ++ "</tbody></table>".toList))))))
    ∧ tableStage ("|x|".toList) = "|x|".toList := by
  have h := C7_table_conversion [("a".toList), ("b".toList)] [("c".toList), ("d".toList)]
    ("|-|-|".toList) ("|x|".toList)
    (by decide) (by decide) (by decide) (by decide) (by decide) (by decide)
    (by decide) (by decide)
  exact ⟨⟨by decide, by decide, by decide, by decide, by decide, by decide,
    by decide, by decide⟩, h.1, h.2.2.2⟩

/-! ## End-to-end scenario -/

set_option maxRecDepth 20000 in
/-- C8: converting `"# Hello\n\nWorld"` yields exactly
`"<h1>Hello</h1>\n<p>World</p>"`; and for a file with that body,
front-matter title `Intro`, and no remote page titled `Intro` in the
default space `DOCS` (empty default parent), the run issues exactly one
create call carrying that storage value, the success/failure tally is
`(1, 0)` and the exit code is 0. -/
theorem C8_end_to_end (r : Remote) (fsm : FsModel) (stem : List Char) (pg : RemotePage)
    (hsearch : search_page_by_title r ("DOCS".toList) ("Intro".toList) = none)
    (hcreate : r.createResp ("DOCS".toList) ("Intro".toList)
        ("<h1>Hello</h1>\n<p>World</p>".toList) none = some pg) :
    (∀ fs : Option FsModel,
      (markdown_to_confluence_storage fs ("# Hello\n\nWorld".toList)).1
        = "<h1>Hello</h1>\n<p>World</p>".toList)
    ∧ (process_markdown_file r fsm ("DOCS".toList) [] stem
        ("---\nconfluence_title: \"Intro\"\n---\n# Hello\n\nWorld".toList)).2
      = [ApiCall.search ("DOCS".toList) ("Intro".toList),
         ApiCall.create ("DOCS".toList) ("Intro".toList)
           ("<h1>Hello</h1>\n<p>World</p>".toList) none]
    ∧ process_markdown_files r fsm ("DOCS".toList) []
        [(stem, ("---\nconfluence_title: \"Intro\"\n---\n# Hello\n\nWorld".toList))]
      = (1, 0)
    ∧ mainExitCode (1, 0) = 0 := by
  have hconv : ∀ fs : Option FsModel,
      (markdown_to_confluence_storage fs ("# Hello\n\nWorld".toList)).1
        = "<h1>Hello</h1>\n<p>World</p>".toList := by
    intro fs
    unfold markdown_to_confluence_storage
    simp only [imageStage_noop fs (show '!' ∉ ("# Hello\n\nWorld".toList) by decide)]
    decide
  have hfm : dictFind (fmOf
      ("---\nconfluence_title: \"Intro\"\n---\n# Hello\n\nWorld".toList)) pidKey
      = none := by decide
  have htitle : titleOf stem
      ("---\nconfluence_title: \"Intro\"\n---\n# Hello\n\nWorld".toList)
      = "Intro".toList := by
    unfold titleOf
    rw [show dictFind (fmOf
        ("---\nconfluence_title: \"Intro\"\n---\n# Hello\n\nWorld".toList)) titleKey
      = some ("Intro".toList) from by decide]
    rfl
  have hspace : spaceOf ("DOCS".toList)
      ("---\nconfluence_title: \"Intro\"\n---\n# Hello\n\nWorld".toList)
      = "DOCS".toList := by
    unfold spaceOf
    rw [show dictFind (fmOf
        ("---\nconfluence_title: \"Intro\"\n---\n# Hello\n\nWorld".toList)) spaceKeyKey
      = none from by decide]
    rfl
  have hparent : parentOptOf []
      ("---\nconfluence_title: \"Intro\"\n---\n# Hello\n\nWorld".toList) = none := by
    unfold parentOptOf
    rw [show dictFind (fmOf
        ("---\nconfluence_title: \"Intro\"\n---\n# Hello\n\nWorld".toList)) parentKey
      = none from by decide]
    rfl
  have hconv2 : convOf fsm
      ("---\nconfluence_title: \"Intro\"\n---\n# Hello\n\nWorld".toList)
      = ("<h1>Hello</h1>\n<p>World</p>".toList, [], []) := by
    unfold convOf
    rw [show bodyOf ("---\nconfluence_title: \"Intro\"\n---\n# Hello\n\nWorld".toList)
        = "# Hello\n\nWorld".toList from by decide]
    unfold markdown_to_confluence_storage
    simp only [imageStage_noop (some fsm) (show '!' ∉ ("# Hello\n\nWorld".toList) by decide)]
    congr 1
  have hproc : process_markdown_file r fsm ("DOCS".toList) [] stem
      ("---\nconfluence_title: \"Intro\"\n---\n# Hello\n\nWorld".toList)
      = (SyncOutcome.created,
         [ApiCall.search ("DOCS".toList) ("Intro".toList),
          ApiCall.create ("DOCS".toList) ("Intro".toList)
            ("<h1>Hello</h1>\n<p>World</p>".toList) none]) := by
    unfold process_markdown_file
    simp only [hfm, htitle, hspace, hparent, hconv2, hsearch, hcreate, List.isEmpty_nil,
      if_true]
  refine ⟨hconv, by rw [hproc], ?_, rfl⟩
  unfold process_markdown_files
  simp only [List.foldl_cons, List.foldl_nil, hproc]
  rfl

/-! ## Reconciliation traces -/

/-- Exhaustive characterization of the call trace of
`process_markdown_file`, one disjunct per control path of the source. -/
theorem process_trace_cases (r : Remote) (fsm : FsModel)
    (SPACE PARENT stem content : List Char) :
    (∃ pid page tail, dictFind (fmOf content) pidKey = some pid
      ∧ r.getResp pid = some page
      ∧ (process_markdown_file r fsm SPACE PARENT stem content).2
          = ApiCall.getPage pid
            :: ApiCall.update pid (titleOf stem content) (convOf fsm content).1
                 (page.version + 1) :: tail
      ∧ (∀ x ∈ tail, ∃ i p, x = ApiCall.upload i p))
    ∨ (∃ pid, dictFind (fmOf content) pidKey = some pid ∧ r.getResp pid = none
      ∧ (process_markdown_file r fsm SPACE PARENT stem content).2
          = [ApiCall.getPage pid])
    ∨ (∃ page tail, dictFind (fmOf content) pidKey = none
      ∧ search_page_by_title r (spaceOf SPACE content) (titleOf stem content) = some page
      ∧ (process_markdown_file r fsm SPACE PARENT stem content).2
          = ApiCall.search (spaceOf SPACE content) (titleOf stem content)
            :: ApiCall.update page.id (titleOf stem content) (convOf fsm content).1
                 (page.version + 1) :: tail
      ∧ (∀ x ∈ tail, ∃ i p, x = ApiCall.upload i p))
    ∨ (∃ pg, dictFind (fmOf content) pidKey = none
      ∧ search_page_by_title r (spaceOf SPACE content) (titleOf stem content) = none
      ∧ r.createResp (spaceOf SPACE content) (titleOf stem content)
          (convOf fsm content).1 (parentOptOf PARENT content) = some pg
      ∧ ((process_markdown_file r fsm SPACE PARENT stem content).2
            = [ApiCall.search (spaceOf SPACE content) (titleOf stem content),
               ApiCall.create (spaceOf SPACE content) (titleOf stem content)
                 (convOf fsm content).1 (parentOptOf PARENT content)]
         ∨ (process_markdown_file r fsm SPACE PARENT stem content).2
            = ApiCall.search (spaceOf SPACE content) (titleOf stem content)
              :: ApiCall.create (spaceOf SPACE content) (titleOf stem content)
                   (convOf fsm content).1 (parentOptOf PARENT content)
              :: ((convOf fsm content).2.1.map (ApiCall.upload pg.id)
                  ++ [ApiCall.update pg.id (titleOf stem content) (convOf fsm content).1
                       (pg.version + 1)])))
    ∨ (dictFind (fmOf content) pidKey = none
      ∧ search_page_by_title r (spaceOf SPACE content) (titleOf stem content) = none
      ∧ r.createResp (spaceOf SPACE content) (titleOf stem content)
          (convOf fsm content).1 (parentOptOf PARENT content) = none
      ∧ (process_markdown_file r fsm SPACE PARENT stem content).2
          = [ApiCall.search (spaceOf SPACE content) (titleOf stem content),
             ApiCall.create (spaceOf SPACE content) (titleOf stem content)
               (convOf fsm content).1 (parentOptOf PARENT content)]) := by
  rcases hp : dictFind (fmOf content) pidKey with _ | pid
  · rcases hs : search_page_by_title r (spaceOf SPACE content) (titleOf stem content)
        with _ | page
    · rcases hc : r.createResp (spaceOf SPACE content) (titleOf stem content)
          (convOf fsm content).1 (parentOptOf PARENT content) with _ | pg
      · refine Or.inr (Or.inr (Or.inr (Or.inr ⟨rfl, rfl, rfl, ?_⟩)))
        unfold process_markdown_file
        simp only [hp, hs, hc]
      · refine Or.inr (Or.inr (Or.inr (Or.inl ⟨pg, rfl, rfl, rfl, ?_⟩)))
        unfold process_markdown_file
        simp only [hp, hs, hc]
        by_cases hi : (convOf fsm content).2.1.isEmpty = true
        · rw [if_pos hi]
          exact Or.inl rfl
        · rw [if_neg hi]
          exact Or.inr rfl
    · rcases hu : r.updateResp page.id (titleOf stem content) (convOf fsm content).1
          (update_page_sentVersion page.version) with _ | upd
      · refine Or.inr (Or.inr (Or.inl ⟨page, [], rfl, rfl, ?_, by simp⟩))
        unfold process_markdown_file
        simp only [hp, hs, hu]
        rfl
      · refine Or.inr (Or.inr (Or.inl ⟨page,
          (if (convOf fsm content).2.1.isEmpty then []
           else (convOf fsm content).2.1.map (ApiCall.upload page.id)), rfl, rfl, ?_, ?_⟩))
        · unfold process_markdown_file
          simp only [hp, hs, hu]
          rfl
        · intro x hx
          by_cases hi : (convOf fsm content).2.1.isEmpty = true
          · rw [if_pos hi] at hx
            cases hx
          · rw [if_neg hi] at hx
            obtain ⟨p, _, rfl⟩ := List.mem_map.1 hx
            exact ⟨page.id, p, rfl⟩
  · rcases hg : r.getResp pid with _ | page
    · refine Or.inr (Or.inl ⟨pid, rfl, hg, ?_⟩)
      unfold process_markdown_file
      simp only [hp, hg]
    · rcases hu : r.updateResp pid (titleOf stem content) (convOf fsm content).1
          (update_page_sentVersion page.version) with _ | upd
      · refine Or.inl ⟨pid, page, [], rfl, hg, ?_, by simp⟩
        · unfold process_markdown_file
          simp only [hp, hg, hu]
          rfl
      · refine Or.inl ⟨pid, page,
          (if (convOf fsm content).2.1.isEmpty then []
           else (convOf fsm content).2.1.map (ApiCall.upload pid)), rfl, hg, ?_, ?_⟩
        · unfold process_markdown_file
          simp only [hp, hg, hu]
          rfl
        · intro x hx
          by_cases hi : (convOf fsm content).2.1.isEmpty = true
          · rw [if_pos hi] at hx
            cases hx
          · rw [if_neg hi] at hx
            obtain ⟨p, _, rfl⟩ := List.mem_map.1 hx
            exact ⟨pid, p, rfl⟩

theorem search_title_exact {r : Remote} {sp t : List Char} {page : RemotePage}
    (h : search_page_by_title r sp t = some page) : page.title = t := by
  unfold search_page_by_title at h
  cases hr : r.searchResp sp t with
  | none => rw [hr] at h; cases h
  | some results =>
    rw [hr] at h
    have := List.find?_some h
    simpa using this

theorem no_create_in_uploads {tail : List ApiCall}
    (htail : ∀ x ∈ tail, ∃ i p, x = ApiCall.upload i p)
    {s t c : List Char} {po : Option (List Char)}
    (hm : ApiCall.create s t c po ∈ tail) : False := by
  obtain ⟨i, p, he⟩ := htail _ hm
  cases he

theorem no_update_in_uploads {tail : List ApiCall}
    (htail : ∀ x ∈ tail, ∃ i p, x = ApiCall.upload i p)
    {i2 t c : List Char} {v : Nat}
    (hm : ApiCall.update i2 t c v ∈ tail) : False := by
  obtain ⟨i, p, he⟩ := htail _ hm
  cases he

/-- C4: when the front matter supplies an explicit page identifier and
the remote lookup reports the page as not found, the file's processing
issues only the single lookup call — no create call and no title search
— the outcome is the "skipping" path, and the file counts as a failure,
not a success, in the run tally. -/
theorem C4_explicit_id_not_found (r : Remote) (fsm : FsModel)
    (SPACE PARENT stem content pid : List Char)
    (hpid : dictFind (fmOf content) pidKey = some pid)
    (hget : r.getResp pid = none) :
    process_markdown_file r fsm SPACE PARENT stem content
      = (SyncOutcome.skippedIdNotFound, [ApiCall.getPage pid])
    ∧ (∀ sp t c po, ApiCall.create sp t c po
        ∉ (process_markdown_file r fsm SPACE PARENT stem content).2)
    ∧ (∀ sp t, ApiCall.search sp t
        ∉ (process_markdown_file r fsm SPACE PARENT stem content).2)
    ∧ outcomeSuccess (process_markdown_file r fsm SPACE PARENT stem content).1 = false
    ∧ process_markdown_files r fsm SPACE PARENT [(stem, content)] = (0, 1) := by
  have hmain : process_markdown_file r fsm SPACE PARENT stem content
      = (SyncOutcome.skippedIdNotFound, [ApiCall.getPage pid]) := by
    unfold process_markdown_file
    simp only [hpid, hget]
  refine ⟨hmain, ?_, ?_, by rw [hmain]; rfl, ?_⟩
  · intro sp t c po hm
    rw [hmain] at hm
    simp at hm
  · intro sp t hm
    rw [hmain] at hm
    simp at hm
  · unfold process_markdown_files
    simp only [List.foldl_cons, List.foldl_nil, hmain]
    rfl

/-- Witness for C4. -/
theorem C4_explicit_id_not_found_witness :
    (dictFind (fmOf ("---\nconfluence_page_id: 123\n---\nBody".toList)) pidKey
        = some ("123".toList)
      ∧ (Remote.mk (fun _ => none) (fun _ _ => none) (fun _ _ _ _ => none)
          (fun _ _ _ _ => none)).getResp ("123".toList) = none)
    ∧ process_markdown_file
        (Remote.mk (fun _ => none) (fun _ _ => none) (fun _ _ _ _ => none)
          (fun _ _ _ _ => none))
        (FsModel.mk (fun _ => false) (fun p => p) (fun _ => false) (fun p => p))
        ("DOCS".toList) [] ("stem".toList)
        ("---\nconfluence_page_id: 123\n---\nBody".toList)
      = (SyncOutcome.skippedIdNotFound, [ApiCall.getPage ("123".toList)])
    ∧ process_markdown_files
        (Remote.mk (fun _ => none) (fun _ _ => none) (fun _ _ _ _ => none)
          (fun _ _ _ _ => none))
        (FsModel.mk (fun _ => false) (fun p => p) (fun _ => false) (fun p => p))
        ("DOCS".toList) []
        [(("stem".toList), ("---\nconfluence_page_id: 123\n---\nBody".toList))]
      = (0, 1) := by
  have h := C4_explicit_id_not_found
    (Remote.mk (fun _ => none) (fun _ _ => none) (fun _ _ _ _ => none)
      (fun _ _ _ _ => none))
    (FsModel.mk (fun _ => false) (fun p => p) (fun _ => false) (fun p => p))
    ("DOCS".toList) [] ("stem".toList)
    ("---\nconfluence_page_id: 123\n---\nBody".toList) ("123".toList)
    (by decide) rfl
  exact ⟨⟨by decide, rfl⟩, h.1, h.2.2.2.2⟩

/-- C1: with no page identifier in the front matter, the reconciler
issues a title/space search; when the exact-title match succeeds the
trace continues with an update of the matched page carrying the fetched
version number plus one and contains no create call; only when no match
is found does the trace contain a create call for the target space and
parent. -/
theorem C1_title_search_reconciliation (r : Remote) (fsm : FsModel)
    (SPACE PARENT stem content : List Char)
    (hnopid : dictFind (fmOf content) pidKey = none) :
    ApiCall.search (spaceOf SPACE content) (titleOf stem content)
        ∈ (process_markdown_file r fsm SPACE PARENT stem content).2
    ∧ (∀ page, search_page_by_title r (spaceOf SPACE content) (titleOf stem content)
          = some page →
        page.title = titleOf stem content
        ∧ (∃ tail, (process_markdown_file r fsm SPACE PARENT stem content).2
            = ApiCall.search (spaceOf SPACE content) (titleOf stem content)
              :: ApiCall.update page.id (titleOf stem content) (convOf fsm content).1
                   (page.version + 1) :: tail)
        ∧ (∀ s2 t2 c2 p2, ApiCall.create s2 t2 c2 p2
            ∉ (process_markdown_file r fsm SPACE PARENT stem content).2))
    ∧ (search_page_by_title r (spaceOf SPACE content) (titleOf stem content) = none →
        ApiCall.create (spaceOf SPACE content) (titleOf stem content)
          (convOf fsm content).1 (parentOptOf PARENT content)
          ∈ (process_markdown_file r fsm SPACE PARENT stem content).2) := by
  rcases process_trace_cases r fsm SPACE PARENT stem content with
    ⟨pid, page, tail, hp, _, _, _⟩ | ⟨pid, hp, _, _⟩ |
    ⟨page, tail, _, hs, htr, htail⟩ | ⟨pg, _, hs, _, htr⟩ | ⟨_, hs, _, htr⟩
  · rw [hnopid] at hp; cases hp
  · rw [hnopid] at hp; cases hp
  · refine ⟨by rw [htr]; simp, ?_, ?_⟩
    · intro page2 hfound
      rw [hs] at hfound
      injection hfound with he
      subst he
      refine ⟨search_title_exact hs, ⟨tail, htr⟩, ?_⟩
      intro s2 t2 c2 p2 hm
      rw [htr] at hm
      rcases List.mem_cons.1 hm with he | hm
      · cases he
      · rcases List.mem_cons.1 hm with he | hm
        · cases he
        · exact no_create_in_uploads htail hm
    · intro hnone
      rw [hs] at hnone
      cases hnone
  · refine ⟨?_, ?_, ?_⟩
    · rcases htr with htr | htr <;> rw [htr] <;> simp
    · intro page2 hfound
      rw [hs] at hfound
      cases hfound
    · intro _
      rcases htr with htr | htr <;> rw [htr] <;> simp
  · refine ⟨by rw [htr]; simp, ?_, ?_⟩
    · intro page2 hfound
      rw [hs] at hfound
      cases hfound
    · intro _
      rw [htr]
      simp

/-- C5: every update request issued by the reconciler carries a version
number equal to one plus the version of the page representation obtained
from the remote response that resolved the page (lookup by id, title
search, or the create response for the just-created page). -/
theorem C5_update_version_increment (r : Remote) (fsm : FsModel)
    (SPACE PARENT stem content id t c : List Char) (v : Nat)
    (h : ApiCall.update id t c v
        ∈ (process_markdown_file r fsm SPACE PARENT stem content).2) :
    ∃ pg : RemotePage, v = update_page_sentVersion pg.version ∧ v = pg.version + 1
      ∧ (r.getResp ((dictFind (fmOf content) pidKey).getD []) = some pg
        ∨ search_page_by_title r (spaceOf SPACE content) (titleOf stem content) = some pg
        ∨ r.createResp (spaceOf SPACE content) (titleOf stem content)
            (convOf fsm content).1 (parentOptOf PARENT content) = some pg) := by
  rcases process_trace_cases r fsm SPACE PARENT stem content with
    ⟨pid, page, tail, hp, hg, htr, htail⟩ | ⟨pid, hp, hg, htr⟩ |
    ⟨page, tail, hp, hs, htr, htail⟩ | ⟨pg, hp, hs, hc, htr⟩ | ⟨hp, hs, hc, htr⟩
  · rw [htr] at h
    rcases List.mem_cons.1 h with he | h
    · cases he
    · rcases List.mem_cons.1 h with he | h
      · injection he with _ _ _ hv
        refine ⟨page, by rw [hv]; rfl, hv, Or.inl ?_⟩
        rw [hp]
        exact hg
      · exact absurd h (fun hm => no_update_in_uploads htail hm)
  · rw [htr] at h
    rcases List.mem_cons.1 h with he | h
    · cases he
    · cases h
  · rw [htr] at h
    rcases List.mem_cons.1 h with he | h
    · cases he
    · rcases List.mem_cons.1 h with he | h
      · injection he with _ _ _ hv
        exact ⟨page, by rw [hv]; rfl, hv, Or.inr (Or.inl hs)⟩
      · exact absurd h (fun hm => no_update_in_uploads htail hm)
  · rcases htr with htr | htr
    · rw [htr] at h
      rcases List.mem_cons.1 h with he | h
      · cases he
      · rcases List.mem_cons.1 h with he | h
        · cases he
        · cases h
    · rw [htr] at h
      rcases List.mem_cons.1 h with he | h
      · cases he
      · rcases List.mem_cons.1 h with he | h
        · cases he
        · rcases List.mem_append.1 h with h | h
          · obtain ⟨p, _, he⟩ := List.mem_map.1 h
            cases he
          · rcases List.mem_singleton.1 h with he
            injection he with _ _ _ hv
            exact ⟨pg, by rw [hv]; rfl, hv, Or.inr (Or.inr hc)⟩
  · rw [htr] at h
    rcases List.mem_cons.1 h with he | h
    · cases he
    · rcases List.mem_cons.1 h with he | h
      · cases he
      · cases h

/-- C9: when the front matter has no `confluence_title` key, the title
placed in every create and update request is the file's stem (base name
without extension); this fallback comes from
`frontmatter.get('confluence_title', md_file.stem)`. -/
theorem C9_title_fallback (r : Remote) (fsm : FsModel)
    (SPACE PARENT stem content : List Char)
    (h : dictFind (fmOf content) titleKey = none) :
    (∀ sp t c po, ApiCall.create sp t c po
        ∈ (process_markdown_file r fsm SPACE PARENT stem content).2 → t = stem)
    ∧ (∀ i t c v, ApiCall.update i t c v
        ∈ (process_markdown_file r fsm SPACE PARENT stem content).2 → t = stem) := by
  have ht : titleOf stem content = stem := by
    unfold titleOf
    rw [h]
    rfl
  rcases process_trace_cases r fsm SPACE PARENT stem content with
    ⟨pid, page, tail, hp, hg, htr, htail⟩ | ⟨pid, hp, hg, htr⟩ |
    ⟨page, tail, hp, hs, htr, htail⟩ | ⟨pg, hp, hs, hc, htr⟩ | ⟨hp, hs, hc, htr⟩
  · constructor
    · intro sp t c po hm
      rw [htr] at hm
      rcases List.mem_cons.1 hm with he | hm
      · cases he
      · rcases List.mem_cons.1 hm with he | hm
        · cases he
        · exact absurd hm (fun hm2 => no_create_in_uploads htail hm2)
    · intro i t c v hm
      rw [htr] at hm
      rcases List.mem_cons.1 hm with he | hm
      · cases he
      · rcases List.mem_cons.1 hm with he | hm
        · injection he with _ h2
          rw [h2, ht]
        · exact absurd hm (fun hm2 => no_update_in_uploads htail hm2)
  · constructor
    · intro sp t c po hm
      rw [htr] at hm
      rcases List.mem_cons.1 hm with he | hm
      · cases he
      · cases hm
    · intro i t c v hm
      rw [htr] at hm
      rcases List.mem_cons.1 hm with he | hm
      · cases he
      · cases hm
  · constructor
    · intro sp t c po hm
      rw [htr] at hm
      rcases List.mem_cons.1 hm with he | hm
      · cases he
      · rcases List.mem_cons.1 hm with he | hm
        · cases he
        · exact absurd hm (fun hm2 => no_create_in_uploads htail hm2)
    · intro i t c v hm
      rw [htr] at hm
      rcases List.mem_cons.1 hm with he | hm
      · cases he
      · rcases List.mem_cons.1 hm with he | hm
        · injection he with _ h2
          rw [h2, ht]
        · exact absurd hm (fun hm2 => no_update_in_uploads htail hm2)
  · rcases htr with htr | htr
    · constructor
      · intro sp t c po hm
        rw [htr] at hm
        rcases List.mem_cons.1 hm with he | hm
        · cases he
        · rcases List.mem_cons.1 hm with he | hm
          · injection he with _ h2
            rw [h2, ht]
          · cases hm
      · intro i t c v hm
        rw [htr] at hm
        rcases List.mem_cons.1 hm with he | hm
        · cases he
        · rcases List.mem_cons.1 hm with he | hm
          · cases he
          · cases hm
    · constructor
      · intro sp t c po hm
        rw [htr] at hm
        rcases List.mem_cons.1 hm with he | hm
        · cases he
        · rcases List.mem_cons.1 hm with he | hm
          · injection he with _ h2
            rw [h2, ht]
          · rcases List.mem_append.1 hm with hm | hm
            · obtain ⟨p, _, he⟩ := List.mem_map.1 hm
              cases he
            · rcases List.mem_singleton.1 hm with he
              cases he
      · intro i t c v hm
        rw [htr] at hm
        rcases List.mem_cons.1 hm with he | hm
        · cases he
        · rcases List.mem_cons.1 hm with he | hm
          · cases he
          · rcases List.mem_append.1 hm with hm | hm
            · obtain ⟨p, _, he⟩ := List.mem_map.1 hm
              cases he
            · rcases List.mem_singleton.1 hm with he
              injection he with _ h2
              rw [h2, ht]
  · constructor
    · intro sp t c po hm
      rw [htr] at hm
      rcases List.mem_cons.1 hm with he | hm
      · cases he
      · rcases List.mem_cons.1 hm with he | hm
        · injection he with _ h2
          rw [h2, ht]
        · cases hm
    · intro i t c v hm
      rw [htr] at hm
      rcases List.mem_cons.1 hm with he | hm
      · cases he
      · rcases List.mem_cons.1 hm with he | hm
        · cases he
        · cases hm

/-- C10: in the front-matter line parser the comment strip
(`value.split('#')[0]`) runs before the whitespace strip and before the
quote strip, so for any line `key: pre#suf` the stored value is computed
from `pre` alone — everything from the first `#` on is discarded, and a
quote opened before the `#` does not protect it. -/
theorem C10_frontmatter_comment_truncation (d : Dict) (k pre suf : List Char)
    (hk : ':' ∉ k) (hpre : '#' ∉ pre) :
    fmStep d (k ++ ':' :: (pre ++ '#' :: suf))
      = dictInsert d (pyStrip k) (stripQuotes (pyStrip pre)) := by
  unfold fmStep
  rw [if_pos (List.mem_append_right _ (List.mem_cons_self _ _))]
  have hkall : ∀ c ∈ k, (decide (c ≠ ':')) = true := by
    intro c hc
    simp only [ne_eq, decide_eq_true_eq]
    rintro rfl
    exact hk hc
  have htk : (k ++ ':' :: (pre ++ '#' :: suf)).takeWhile (fun c => c ≠ ':') = k := by
    rw [takeWhile_append_all _ hkall]
    rw [show (':' :: (pre ++ '#' :: suf)).takeWhile (fun c => c ≠ ':') = [] from by
      simp [List.takeWhile_cons]]
    simp
  have hdk : ((k ++ ':' :: (pre ++ '#' :: suf)).dropWhile (fun c => c ≠ ':')).drop 1
      = pre ++ '#' :: suf := by
    rw [dropWhile_append_all _ hkall]
    rw [show (':' :: (pre ++ '#' :: suf)).dropWhile (fun c => c ≠ ':')
        = ':' :: (pre ++ '#' :: suf) from by simp [List.dropWhile_cons]]
    rfl
  have hpreall : ∀ c ∈ pre, (decide (c ≠ '#')) = true := by
    intro c hc
    simp only [ne_eq, decide_eq_true_eq]
    rintro rfl
    exact hpre hc
  have htp : (pre ++ '#' :: suf).takeWhile (fun c => c ≠ '#') = pre := by
    rw [takeWhile_append_all _ hpreall]
    rw [show ('#' :: suf).takeWhile (fun c => c ≠ '#') = [] from by
      simp [List.takeWhile_cons]]
    simp
  simp only [htk, hdk, htp]

/-- Witness for C10 on the line `confluence_title: "Issue #1"`: the
stored value is `Issue`, truncated at the `#` despite the quotes. -/
theorem C10_frontmatter_comment_truncation_witness :
    (':' ∉ ("confluence_title".toList) ∧ '#' ∉ (" \"Issue ".toList))
    ∧ fmStep [] (("confluence_title".toList)
        ++ ':' :: ((" \"Issue ".toList) ++ '#' :: ("1\"".toList)))
      = [(("confluence_title".toList), ("Issue".toList))] := by
  refine ⟨⟨by decide, by decide⟩, ?_⟩
  rw [C10_frontmatter_comment_truncation [] _ _ _ (by decide) (by decide)]
  decide

/-- Witness for C1 with an exact title match for `Intro` (version 3). -/
theorem C1_title_search_reconciliation_witness :
    dictFind (fmOf ("---\nconfluence_title: Intro\n---\nBody".toList)) pidKey = none
    ∧ ApiCall.search ("DOCS".toList) ("Intro".toList)
        ∈ (process_markdown_file
            (Remote.mk (fun _ => none)
              (fun _ _ => some [RemotePage.mk ("5".toList) ("Intro".toList) 3])
              (fun _ _ _ _ => none)
              (fun _ _ _ _ => some (RemotePage.mk ("5".toList) ("Intro".toList) 3)))
            (FsModel.mk (fun _ => false) (fun p => p) (fun _ => false) (fun p => p))
            ("DOCS".toList) [] ("stem".toList)
            ("---\nconfluence_title: Intro\n---\nBody".toList)).2 := by
  refine ⟨by decide, ?_⟩
  have h := C1_title_search_reconciliation
    (Remote.mk (fun _ => none)
      (fun _ _ => some [RemotePage.mk ("5".toList) ("Intro".toList) 3])
      (fun _ _ _ _ => none)
      (fun _ _ _ _ => some (RemotePage.mk ("5".toList) ("Intro".toList) 3)))
    (FsModel.mk (fun _ => false) (fun p => p) (fun _ => false) (fun p => p))
    ("DOCS".toList) [] ("stem".toList)
    ("---\nconfluence_title: Intro\n---\nBody".toList) (by decide)
  have h1 := h.1
  rw [show spaceOf ("DOCS".toList) ("---\nconfluence_title: Intro\n---\nBody".toList)
      = "DOCS".toList from by decide,
    show titleOf ("stem".toList) ("---\nconfluence_title: Intro\n---\nBody".toList)
      = "Intro".toList from by decide] at h1
  exact h1

/-- Witness for C5: an explicit-id update of a page at version 7 sends
version 8. -/
theorem C5_update_version_increment_witness :
    ApiCall.update ("123".toList) ("stem".toList) ("<p>Body</p>".toList) 8
        ∈ (process_markdown_file
            (Remote.mk (fun _ => some (RemotePage.mk ("123".toList) ("T".toList) 7))
              (fun _ _ => none) (fun _ _ _ _ => none)
              (fun _ _ _ _ => some (RemotePage.mk ("123".toList) ("T".toList) 7)))
            (FsModel.mk (fun _ => false) (fun p => p) (fun _ => false) (fun p => p))
            ("DOCS".toList) [] ("stem".toList)
            ("---\nconfluence_page_id: 123\n---\nBody".toList)).2
    ∧ (∃ pg : RemotePage, 8 = update_page_sentVersion pg.version ∧ 8 = pg.version + 1
        ∧ ((Remote.mk (fun _ => some (RemotePage.mk ("123".toList) ("T".toList) 7))
              (fun _ _ => none) (fun _ _ _ _ => none)
              (fun _ _ _ _ => some (RemotePage.mk ("123".toList) ("T".toList) 7))).getResp
            ((dictFind (fmOf ("---\nconfluence_page_id: 123\n---\nBody".toList))
               pidKey).getD []) = some pg
          ∨ search_page_by_title
              (Remote.mk (fun _ => some (RemotePage.mk ("123".toList) ("T".toList) 7))
                (fun _ _ => none) (fun _ _ _ _ => none)
                (fun _ _ _ _ => some (RemotePage.mk ("123".toList) ("T".toList) 7)))
              (spaceOf ("DOCS".toList) ("---\nconfluence_page_id: 123\n---\nBody".toList))
              (titleOf ("stem".toList) ("---\nconfluence_page_id: 123\n---\nBody".toList))
              = some pg
          ∨ (Remote.mk (fun _ => some (RemotePage.mk ("123".toList) ("T".toList) 7))
              (fun _ _ => none) (fun _ _ _ _ => none)
              (fun _ _ _ _ => some (RemotePage.mk ("123".toList) ("T".toList) 7))).createResp
              (spaceOf ("DOCS".toList) ("---\nconfluence_page_id: 123\n---\nBody".toList))
              (titleOf ("stem".toList) ("---\nconfluence_page_id: 123\n---\nBody".toList))
              (convOf (FsModel.mk (fun _ => false) (fun p => p) (fun _ => false) (fun p => p))
                ("---\nconfluence_page_id: 123\n---\nBody".toList)).1
              (parentOptOf [] ("---\nconfluence_page_id: 123\n---\nBody".toList))
              = some pg)) := by
  refine ⟨by decide, ?_⟩
  exact C5_update_version_increment
    (Remote.mk (fun _ => some (RemotePage.mk ("123".toList) ("T".toList) 7))
      (fun _ _ => none) (fun _ _ _ _ => none)
      (fun _ _ _ _ => some (RemotePage.mk ("123".toList) ("T".toList) 7)))
    (FsModel.mk (fun _ => false) (fun p => p) (fun _ => false) (fun p => p))
    ("DOCS".toList) [] ("stem".toList)
    ("---\nconfluence_page_id: 123\n---\nBody".toList)
    ("123".toList) ("stem".toList) ("<p>Body</p>".toList) 8 (by decide)

/-- Witness for C9: with no `confluence_title` key the create call's
title is the stem. -/
theorem C9_title_fallback_witness :
    dictFind (fmOf ("---\nconfluence_space_key: X\n---\nBody".toList)) titleKey = none
    ∧ ApiCall.create ("X".toList) ("stem".toList) ("<p>Body</p>".toList) none
        ∈ (process_markdown_file
            (Remote.mk (fun _ => none) (fun _ _ => some []) (fun _ _ _ _ => none)
              (fun _ _ _ _ => none))
            (FsModel.mk (fun _ => false) (fun p => p) (fun _ => false) (fun p => p))
            ("DOCS".toList) [] ("stem".toList)
            ("---\nconfluence_space_key: X\n---\nBody".toList)).2
    ∧ ("stem".toList) = ("stem".toList) := by
  refine ⟨by decide, by decide, ?_⟩
  exact (C9_title_fallback
    (Remote.mk (fun _ => none) (fun _ _ => some []) (fun _ _ _ _ => none)
      (fun _ _ _ _ => none))
    (FsModel.mk (fun _ => false) (fun p => p) (fun _ => false) (fun p => p))
    ("DOCS".toList) [] ("stem".toList)
    ("---\nconfluence_space_key: X\n---\nBody".toList) (by decide)).1
    ("X".toList) ("stem".toList) ("<p>Body</p>".toList) none (by decide)

/-- Witness for C8. -/
theorem C8_end_to_end_witness :
    (search_page_by_title
        (Remote.mk (fun _ => none) (fun _ _ => some [])
          (fun _ _ _ _ => some (RemotePage.mk ("9".toList) ("Intro".toList) 1))
          (fun _ _ _ _ => none))
        ("DOCS".toList) ("Intro".toList) = none
      ∧ (Remote.mk (fun _ => none) (fun _ _ => some [])
          (fun _ _ _ _ => some (RemotePage.mk ("9".toList) ("Intro".toList) 1))
          (fun _ _ _ _ => none)).createResp ("DOCS".toList) ("Intro".toList)
          ("<h1>Hello</h1>\n<p>World</p>".toList) none
        = some (RemotePage.mk ("9".toList) ("Intro".toList) 1))
    ∧ (process_markdown_file
        (Remote.mk (fun _ => none) (fun _ _ => some [])
          (fun _ _ _ _ => some (RemotePage.mk ("9".toList) ("Intro".toList) 1))
          (fun _ _ _ _ => none))
        (FsModel.mk (fun _ => false) (fun p => p) (fun _ => false) (fun p => p))
        ("DOCS".toList) [] ("stem".toList)
        ("---\nconfluence_title: \"Intro\"\n---\n# Hello\n\nWorld".toList)).2
      = [ApiCall.search ("DOCS".toList) ("Intro".toList),
         ApiCall.create ("DOCS".toList) ("Intro".toList)
           ("<h1>Hello</h1>\n<p>World</p>".toList) none]
    ∧ process_markdown_files
        (Remote.mk (fun _ => none) (fun _ _ => some [])
          (fun _ _ _ _ => some (RemotePage.mk ("9".toList) ("Intro".toList) 1))
          (fun _ _ _ _ => none))
        (FsModel.mk (fun _ => false) (fun p => p) (fun _ => false) (fun p => p))
        ("DOCS".toList) []
        [(("stem".toList), ("---\nconfluence_title: \"Intro\"\n---\n# Hello\n\nWorld".toList))]
      = (1, 0)
    ∧ mainExitCode (1, 0) = 0 := by
  have h := C8_end_to_end
    (Remote.mk (fun _ => none) (fun _ _ => some [])
      (fun _ _ _ _ => some (RemotePage.mk ("9".toList) ("Intro".toList) 1))
      (fun _ _ _ _ => none))
    (FsModel.mk (fun _ => false) (fun p => p) (fun _ => false) (fun p => p))
    ("stem".toList) (RemotePage.mk ("9".toList) ("Intro".toList) 1) (by decide) rfl
  exact ⟨⟨by decide, rfl⟩, h.2.1, h.2.2.1, h.2.2.2⟩
